import Mathlib

/-!
Verification of the odoo-module-migrator v14→v15 migration script
(`migration_scripts/migrate_140_150.py`) against its natural-language
specification.  The Python functions are shallowly embedded as executable
Lean definitions operating on strings and character lists; file I/O is
abstracted away (file contents are passed as strings, file deletion is a
boolean flag), and Python exceptions are modelled with `Except String`.
-/

set_option autoImplicit false
set_option maxRecDepth 20000
set_option maxHeartbeats 3200000

namespace OdooMig

instance {α : Type} [DecidableEq α] : DecidableEq (Except String α) := fun x y =>
  match x, y with
  | .ok a, .ok b =>
    if h : a = b then .isTrue (by rw [h])
    else .isFalse (fun hc => h (Except.ok.inj hc))
  | .error a, .error b =>
    if h : a = b then .isTrue (by rw [h])
    else .isFalse (fun hc => h (Except.error.inj hc))
  | .ok _, .error _ => .isFalse (fun hc => Except.noConfusion hc)
  | .error _, .ok _ => .isFalse (fun hc => Except.noConfusion hc)

abbrev Chars := List Char

/-- Number of leading space characters of a line
(`len(line) - len(line.lstrip(" "))` in the source). -/
def countLeadingSpaces : Chars → Nat
  | [] => 0
  | c :: cs => if c = ' ' then countLeadingSpaces cs + 1 else 0

/-- A line is blank when `line.strip()` is empty in the source, i.e. it
consists of whitespace only. -/
def isBlankLine (l : Chars) : Bool := l.all (fun c => c.isWhitespace)

/-- Splitting a text into lines, following Python `str.splitlines()` for the
line terminators `\n`, `\r\n` and `\r` (no trailing empty line). -/
def splitLines : Chars → List Chars
  | [] => []
  | '\r' :: '\n' :: rest => [] :: splitLines rest
  | '\n' :: rest => [] :: splitLines rest
  | '\r' :: rest => [] :: splitLines rest
  | c :: rest =>
    match splitLines rest with
    | [] => [[c]]
    | l :: ls => (c :: l) :: ls

/-! ### Formatting sniffer (`_determine_indentation`, source lines 312-331) -/

/-- `ALLOWED_INDENTATIONS = [4, 2, 3]` (source line 57). -/
def ALLOWED_INDENTATIONS : List Nat := [4, 2, 3]

/-- Votes contributed by one manifest line: nothing for a blank line or a
line without leading spaces, otherwise one vote for every allowed
indentation width that divides the leading-space count exactly
(source lines 314-324). -/
def indentVotesLine (l : Chars) : List Nat :=
  if isBlankLine l then []
  else
    let lead := countLeadingSpaces l
    if lead = 0 then []
    else ALLOWED_INDENTATIONS.filter (fun f => lead % f = 0)

/-- The `indentations` list accumulated over all lines of the manifest
source (source lines 313-324). -/
def indentVotes (src : Chars) : List Nat :=
  (splitLines src).foldl (fun acc l => acc ++ indentVotesLine l) []

/-- Number of occurrences of `a` in `l` (the count a `collections.Counter`
stores for key `a`). -/
def countN (a : Nat) (l : List Nat) : Nat := (l.filter (fun b => b = a)).length

/-- Index of the first occurrence of `a` in `l` (length of `l` when `a` is
absent). -/
def firstIdx (a : Nat) : List Nat → Nat
  | [] => 0
  | b :: bs => if b = a then 0 else firstIdx a bs + 1

/-- Fuelled worker for `counterKeys` (the fuel only serves termination; it
always exceeds the list length at the call site). -/
def counterKeysF : Nat → List Nat → List Nat
  | 0, _ => []
  | _ + 1, [] => []
  | fuel + 1, v :: vs => v :: counterKeysF fuel (vs.filter (fun w => ¬ (w = v)))

/-- The keys of `collections.Counter(votes)` in insertion order: first
occurrences, in order of appearance. -/
def counterKeys (l : List Nat) : List Nat := counterKeysF (l.length + 1) l

/-- `Counter(votes).most_common(1)`: the key with the largest count; among
tied keys the one inserted first (CPython `heapq.nlargest(1, ...)` keeps
the first maximum in iteration order, and dict iteration order is insertion
order). -/
def mostCommon1 (votes : List Nat) : Option Nat :=
  match counterKeys votes with
  | [] => none
  | k :: ks =>
    some (ks.foldl (fun best k2 =>
      if countN k2 votes > countN best votes then k2 else best) k)

def indentationErrMsg : String :=
  "Could not determine the indentation in a manifest file"

/-- `_determine_indentation` (source lines 312-331): vote per line and
allowed width, then `Counter(...).most_common(1)`; raises `RuntimeError`
when no vote was recorded. -/
def determineIndentation (src : String) : Except String Nat :=
  match mostCommon1 (indentVotes src.data) with
  | none => .error indentationErrMsg
  | some w => .ok w

/-! ### Asset path rooting (`_ensure_asset_paths_start_with_module_name`,
source lines 172-177) -/

/-- Python `str.startswith`, computed on the character lists. -/
def pyStartsWith (p q : String) : Bool := q.data.isPrefixOf p.data

/-- Python `str.endswith`, computed on the character lists. -/
def pyEndsWith (p q : String) : Bool := q.data.isSuffixOf p.data

/-- Python `os.path.join(a, b)` for the two-argument case used by the
source: an absolute second component discards the first; otherwise the
parts are joined with a single `/`. -/
def pyPathJoin (a b : String) : String :=
  if pyStartsWith b "/" then b
  else if a = "" ∨ pyEndsWith a "/" then a ++ b
  else a ++ "/" ++ b

/-- Rooting of one collected asset path (source lines 174-177): the path is
left unchanged when it starts with `/<module_name>` or with `module_name`
as a plain string prefix; otherwise it is joined under `/<module_name>`. -/
def rootAssetPath (moduleName : String) (p : String) : String :=
  let rootPath := "/" ++ moduleName
  if ¬ pyStartsWith p rootPath ∧ ¬ pyStartsWith p moduleName then
    pyPathJoin rootPath p
  else p

/-- `_ensure_asset_paths_start_with_module_name` (source lines 172-177),
acting on the assets mapping represented as an insertion-ordered
association list. -/
def ensureAssetPaths (assets : List (String × List String))
    (moduleName : String) : List (String × List String) :=
  assets.map (fun kv => (kv.1, kv.2.map (rootAssetPath moduleName)))

/-! ### Literal text substitution
(`re.sub` with a literal pattern and Python `str.replace` both replace the
non-overlapping occurrences of a fixed token, scanning left to right.) -/

/-- Fuelled worker for `splitTok` (the fuel only serves termination; it
always exceeds the input length at the call site). -/
def splitTokF : Nat → Chars → Chars → List Chars
  | 0, _, s => [s]
  | _ + 1, _, [] => [[]]
  | fuel + 1, tok, c :: cs =>
    if tok ≠ [] ∧ tok.isPrefixOf (c :: cs) then
      [] :: splitTokF fuel tok (List.drop tok.length (c :: cs))
    else
      match splitTokF fuel tok cs with
      | [] => [[c]]
      | p :: ps => (c :: p) :: ps

/-- Split a text at the non-overlapping left-to-right occurrences of `tok`;
the pieces are the stretches between the matches. -/
def splitTok (tok s : Chars) : List Chars := splitTokF (s.length + 1) tok s

/-- Join pieces back, inserting `rep` between consecutive pieces. -/
def joinWith (rep : Chars) : List Chars → Chars
  | [] => []
  | [p] => p
  | p :: ps => p ++ rep ++ joinWith rep ps

/-- Replacement of every occurrence of the literal token `tok` by `rep`
(Python `re.sub` with a literal pattern / `str.replace`). -/
def replaceTok (tok rep : Chars) (s : Chars) : Chars :=
  joinWith rep (splitTok tok s)

/-- Whether the literal token `tok` occurs in `s` (Python `re.search` with a
literal pattern). -/
def containsTokB (tok : Chars) : Chars → Bool
  | [] => false
  | c :: cs => tok.isPrefixOf (c :: cs) || containsTokB tok cs

/-- `tok` occurs (as a contiguous substring) somewhere in `s`. -/
def occursIn (tok s : Chars) : Prop := ∃ i, tok <+: s.drop i

/-! ### Template expression migrator (`search_directories`, source lines
348-377): the regex `\$\x7b([^\x7d|]+)(\| ?safe)?\x7d` replaced by
`\x7b\x7b \1 \x7d\x7d`, then the literal tokens `t-raw` and `t-esc`
replaced by `t-out`. -/

/-- Attempted match of the interpolation regex at the current position:
`$`, `\x7b`, a non-empty run of characters other than `\x7d` and `|`
(capturing group 1), an optional `| safe` / `|safe` suffix, then `\x7d`.
Returns the captured group and the rest of the input after the match. -/
def valueMatchAt : Chars → Option (Chars × Chars)
  | '$' :: '\x7b' :: rest =>
    let run := rest.takeWhile (fun c => ¬ (c = '\x7d') ∧ ¬ (c = '|'))
    let after := rest.drop run.length
    if run = [] then none
    else
      match after with
      | '\x7d' :: r => some (run, r)
      | '|' :: r =>
        let r' := if r.head? = some ' ' then r.tail else r
        if ['s', 'a', 'f', 'e'].isPrefixOf r' then
          match r'.drop 4 with
          | '\x7d' :: r2 => some (run, r2)
          | _ => none
        else none
      | _ => none
  | _ => none

/-- One pass of `re.sub(value_pattern_to_match, value_replacement_text, s)`,
with fuel for termination (the fuel is always at least the input length
plus one at the call sites). -/
def valueSubF : Nat → Chars → Chars
  | 0, s => s
  | _ + 1, [] => []
  | fuel + 1, c :: cs =>
    match valueMatchAt (c :: cs) with
    | some (g1, rest) =>
      ('\x7b' :: '\x7b' :: ' ' :: g1) ++ (' ' :: '\x7d' :: '\x7d' :: valueSubF fuel rest)
    | none => c :: valueSubF fuel cs

def valueSub (s : Chars) : Chars := valueSubF (s.length + 1) s

/-- `re.search(value_pattern_to_match, s)` is truthy. -/
def hasValueMatch : Chars → Bool
  | [] => false
  | c :: cs => (valueMatchAt (c :: cs)).isSome || hasValueMatch cs

def trawTok : Chars := ['t', '-', 'r', 'a', 'w']
def tescTok : Chars := ['t', '-', 'e', 's', 'c']
def toutTok : Chars := ['t', '-', 'o', 'u', 't']

/-- The transformation `search_directories` applies to the text of one XML
file (source lines 363-373): each of the three passes runs exactly when the
originally-read content is non-empty and contains a match, and the passes
are applied in sequence to the progressively rewritten text. -/
def migrateFileText (s : Chars) : Chars :=
  let s1 := if s ≠ [] ∧ hasValueMatch s then valueSub s else s
  let s2 := if s ≠ [] ∧ containsTokB trawTok s then replaceTok trawTok toutTok s1 else s1
  let s3 := if s ≠ [] ∧ containsTokB tescTok s then replaceTok tescTok toutTok s2 else s2
  s3

/-! ### Manifest text locator
The source parses the manifest with `asttokens.ASTTokens(source, parse=True)`
and requires the module body to be a single expression statement whose value
is a dict literal.  We embed the narrow manifest grammar (a literal mapping
with string keys and literal values) with a recursive-descent parser that
records, for every key/value pair, the span of the value's last token, and
the span of the mapping's opening brace — exactly the data the locator
functions consume. -/

/-- A token's source span: `startpos` is the offset of its first character
and `endpos` the offset one past its last character (as in
`asttokens.util.Token`). -/
structure Tok where
  startpos : Nat
  endpos : Nat
deriving Repr, DecidableEq

/-- One top-level `key: value` pair of the manifest mapping: the decoded
string key and the span of the value's last token. -/
structure MPair where
  key : String
  valTok : Tok
deriving Repr, DecidableEq

/-- The offset-annotated parse of a manifest: the span of the mapping's
opening brace (`ast_dict.first_token`) and the pairs in declared order. -/
structure MDict where
  firstTok : Tok
  pairs : List MPair
deriving Repr, DecidableEq

def charAt (s : Chars) (i : Nat) : Option Char := s.get? i

def parseErrMsg : String := "manifest is not a single literal mapping"

def isWsChar (c : Char) : Bool := c = ' ' ∨ c = '\n' ∨ c = '\t' ∨ c = '\r'

/-- Skip to just past the next newline (end of a `#` comment), consuming
the remaining input and tracking the current offset. -/
def skipEol : Nat → Chars → Nat → Chars × Nat
  | 0, s, p => (s, p)
  | _ + 1, [], p => ([], p)
  | _ + 1, '\n' :: cs, p => (cs, p + 1)
  | fuel + 1, _ :: cs, p => skipEol fuel cs (p + 1)

/-- Skip whitespace and `#` comments. -/
def skipWsM : Nat → Chars → Nat → Chars × Nat
  | 0, s, p => (s, p)
  | _ + 1, [], p => ([], p)
  | fuel + 1, c :: cs, p =>
    if isWsChar c then skipWsM fuel cs (p + 1)
    else if c = '#' then
      match skipEol fuel cs (p + 1) with
      | (s', p') => skipWsM fuel s' p'
    else (c :: cs, p)

def unescapeChar (c : Char) : Char :=
  if c = 'n' then '\n'
  else if c = 't' then '\t'
  else if c = 'r' then '\r'
  else c

/-- Scan a Python string literal whose opening quote sat at offset `start`
(the input begins just after it).  Returns the decoded contents, the token
span and the input after the closing quote with its offset. -/
def scanString (q : Char) (start : Nat) :
    Nat → Chars → Nat → Chars → Except String (String × Tok × Chars × Nat)
  | 0, _, _, _ => .error parseErrMsg
  | _ + 1, [], _, _ => .error parseErrMsg
  | fuel + 1, c :: cs, p, acc =>
    if c = q then .ok (⟨acc.reverse⟩, ⟨start, p + 1⟩, cs, p + 1)
    else if c = '\n' then .error parseErrMsg
    else if c = '\\' then
      match cs with
      | c2 :: cs2 => scanString q start fuel cs2 (p + 2) (unescapeChar c2 :: acc)
      | [] => .error parseErrMsg
    else scanString q start fuel cs (p + 1) (c :: acc)

/-- Consume a run of characters satisfying `pred`. -/
def scanWhileM (pred : Char → Bool) : Chars → Nat → Chars × Nat
  | [], p => ([], p)
  | c :: cs, p => if pred c then scanWhileM pred cs (p + 1) else (c :: cs, p)

mutual

/-- Parse one literal value; returns the span of the value's LAST token
(`value.last_token` in asttokens) and the input/offset after the value. -/
def parseValue : Nat → Chars → Nat → Except String (Tok × Chars × Nat)
  | 0, _, _ => .error parseErrMsg
  | fuel + 1, s, p =>
    match s with
    | [] => .error parseErrMsg
    | c :: cs =>
      if c = '\'' ∨ c = '"' then
        (scanString c p fuel cs (p + 1) []).map (fun r => r.2)
      else if c = '[' then
        parseSeqTail fuel cs (p + 1) ']'
      else if c = '(' then
        parseSeqTail fuel cs (p + 1) ')'
      else if c = '\x7b' then
        parseDictTail fuel cs (p + 1)
      else if c = '-' then
        match scanWhileM (fun d => d.isDigit ∨ d = '.') cs (p + 1) with
        | (s', p') =>
          if p' = p + 1 then .error parseErrMsg else .ok (⟨p + 1, p'⟩, s', p')
      else if c.isDigit then
        match scanWhileM (fun d => d.isDigit ∨ d = '.') (c :: cs) p with
        | (s', p') => .ok (⟨p, p'⟩, s', p')
      else if c.isAlpha ∨ c = '_' then
        match scanWhileM (fun d => d.isAlphanum ∨ d = '_') (c :: cs) p with
        | (s', p') => .ok (⟨p, p'⟩, s', p')
      else .error parseErrMsg

/-- Parse the remainder of a `[...]` or `(...)` sequence literal (after the
opening bracket); the span returned is that of the closing bracket. -/
def parseSeqTail : Nat → Chars → Nat → Char → Except String (Tok × Chars × Nat)
  | 0, _, _, _ => .error parseErrMsg
  | fuel + 1, s, p, close =>
    match skipWsM (fuel + 1) s p with
    | (s1, p1) =>
      match s1 with
      | [] => .error parseErrMsg
      | c :: cs =>
        if c = close then .ok (⟨p1, p1 + 1⟩, cs, p1 + 1)
        else
          match parseValue fuel (c :: cs) p1 with
          | .error e => .error e
          | .ok (_, s2, p2) =>
            match skipWsM (fuel + 1) s2 p2 with
            | (s3, p3) =>
              match s3 with
              | ',' :: cs3 => parseSeqTail fuel cs3 (p3 + 1) close
              | c3 :: cs3 =>
                if c3 = close then .ok (⟨p3, p3 + 1⟩, cs3, p3 + 1)
                else .error parseErrMsg
              | [] => .error parseErrMsg

/-- Parse the remainder of a nested `\x7b...\x7d` dict literal used as a
value (after the opening brace); the span returned is that of the closing
brace. -/
def parseDictTail : Nat → Chars → Nat → Except String (Tok × Chars × Nat)
  | 0, _, _ => .error parseErrMsg
  | fuel + 1, s, p =>
    match skipWsM (fuel + 1) s p with
    | (s1, p1) =>
      match s1 with
      | [] => .error parseErrMsg
      | '\x7d' :: cs => .ok (⟨p1, p1 + 1⟩, cs, p1 + 1)
      | c :: cs =>
        match parseValue fuel (c :: cs) p1 with
        | .error e => .error e
        | .ok (_, s2, p2) =>
          match skipWsM (fuel + 1) s2 p2 with
          | (':' :: cs3, p3) =>
            match skipWsM (fuel + 1) cs3 (p3 + 1) with
            | (s4, p4) =>
              match parseValue fuel s4 p4 with
              | .error e => .error e
              | .ok (_, s5, p5) =>
                match skipWsM (fuel + 1) s5 p5 with
                | (',' :: cs6, p6) => parseDictTail fuel cs6 (p6 + 1)
                | ('\x7d' :: cs6, p6) => .ok (⟨p6, p6 + 1⟩, cs6, p6 + 1)
                | _ => .error parseErrMsg
          | _ => .error parseErrMsg

/-- Parse the `key: value, ...` pairs of the top-level mapping, recording
each pair's key and value-last-token span. -/
def parseTopPairs : Nat → Chars → Nat → List MPair → Except String (List MPair × Chars × Nat)
  | 0, _, _, _ => .error parseErrMsg
  | fuel + 1, s, p, acc =>
    match skipWsM (fuel + 1) s p with
    | (s1, p1) =>
      match s1 with
      | [] => .error parseErrMsg
      | '\x7d' :: cs => .ok (acc.reverse, cs, p1 + 1)
      | c :: cs =>
        if c = '\'' ∨ c = '"' then
          match scanString c p1 fuel cs (p1 + 1) [] with
          | .error e => .error e
          | .ok (key, _, s2, p2) =>
            match skipWsM (fuel + 1) s2 p2 with
            | (':' :: cs3, p3) =>
              match skipWsM (fuel + 1) cs3 (p3 + 1) with
              | (s4, p4) =>
                match parseValue fuel s4 p4 with
                | .error e => .error e
                | .ok (vtok, s5, p5) =>
                  match skipWsM (fuel + 1) s5 p5 with
                  | (',' :: cs6, p6) => parseTopPairs fuel cs6 (p6 + 1) (⟨key, vtok⟩ :: acc)
                  | ('\x7d' :: cs6, p6) => .ok ((⟨key, vtok⟩ :: acc).reverse, cs6, p6 + 1)
                  | _ => .error parseErrMsg
            | _ => .error parseErrMsg
        else .error parseErrMsg

end

/-- Parse a manifest source as a single top-level literal mapping with
string keys, keeping the offset information the locators need
(`asttokens.ASTTokens(manifest_source, parse=True)` followed by the
`ast_dict_expr, = ast_tree.body` / `ast_dict = ast_dict_expr.value`
destructuring of the source, lines 202-209 and 218-227). -/
def parseManifest (src : String) : Except String MDict :=
  let s := src.data
  let fuel := s.length + 10
  match skipWsM fuel s 0 with
  | ('\x7b' :: cs, p1) =>
    match parseTopPairs fuel cs (p1 + 1) [] with
    | .error e => .error e
    | .ok (pairs, s2, p2) =>
      match skipWsM fuel s2 p2 with
      | ([], _) => .ok ⟨⟨p1, p1 + 1⟩, pairs⟩
      | _ => .error parseErrMsg
  | _ => .error parseErrMsg

def dataErrMsg : String := "Unable to find data list in the manifest."
def qwebErrMsg : String := "Unable to find qweb list in the manifest."

/-- The key/value iteration of `_find_data_index_range` (source lines
227-241): `prev` is `previous_last_token`, initially the mapping's first
token; on a match `index_start` is `previous_last_token.startpos + 1`,
advanced past a comma if one sits there, and `index_end` is the end offset
of the value's last token. -/
def findDataLoop (s : Chars) : Tok → List MPair → Except String (Nat × Nat)
  | _, [] => .error dataErrMsg
  | prev, p :: ps =>
    if p.key = "data" then
      let s0 := prev.startpos + 1
      let s1 := if charAt s s0 = some ',' then s0 + 1 else s0
      .ok (s1, p.valTok.endpos)
    else findDataLoop s p.valTok ps

/-- The key/value iteration of `_find_qweb_index_range` (source lines
253-265); unlike the data variant it performs NO comma adjustment. -/
def findQwebLoop (s : Chars) : Tok → List MPair → Except String (Nat × Nat)
  | _, [] => .error qwebErrMsg
  | prev, p :: ps =>
    if p.key = "qweb" then
      .ok (prev.startpos + 1, p.valTok.endpos)
    else findQwebLoop s p.valTok ps

/-- `_find_data_index_range` (source lines 218-241). -/
def findDataIndexRange (src : String) : Except String (Nat × Nat) :=
  (parseManifest src).bind fun d => findDataLoop src.data d.firstTok d.pairs

/-- `_find_qweb_index_range` (source lines 244-265). -/
def findQwebIndexRange (src : String) : Except String (Nat × Nat) :=
  (parseManifest src).bind fun d => findQwebLoop src.data d.firstTok d.pairs

/-- `_find_assets_inject_index` (source lines 202-215): the end offset of
the last declared value's last token, advanced past a trailing comma.  An
empty mapping makes `ast_dict.values[-1]` raise, modelled as an error. -/
def findAssetsInjectIndex (src : String) : Except String Nat :=
  (parseManifest src).bind fun d =>
    match d.pairs.getLast? with
    | none => .error parseErrMsg
    | some p =>
      let idx := p.valTok.endpos
      .ok (if charAt src.data idx = some ',' then idx + 1 else idx)

/-! ### Literal serializer (`_format_dict`, source lines 295-303), built on
a model of `json.dumps(..., indent=n)`. -/

inductive JVal where
  | jstr (s : String)
  | jbool (b : Bool)
  | jarr (l : List JVal)
  | jobj (l : List (String × JVal))
deriving Repr

def jsonEscapeChar (c : Char) : String :=
  if c = '"' then "\\\""
  else if c = '\\' then "\\\\"
  else if c = '\n' then "\\n"
  else if c = '\t' then "\\t"
  else if c = '\r' then "\\r"
  else String.mk [c]

def jsonEscape (s : String) : String :=
  s.data.foldl (fun acc c => acc ++ jsonEscapeChar c) ""

/-- `indent * level` spaces. -/
def pad (ind lvl : Nat) : String := String.mk (List.replicate (ind * lvl) ' ')

mutual

/-- `json.dumps(v, indent=ind)` at nesting level `lvl` (default separators,
so items are separated by `,\n` and keys by `: `). -/
def dumpJ (ind lvl : Nat) : JVal → String
  | .jstr s => "\"" ++ jsonEscape s ++ "\""
  | .jbool b => if b then "true" else "false"
  | .jarr l =>
    match l with
    | [] => "[]"
    | x :: xs => "[\n" ++ dumpArr ind (lvl + 1) (x :: xs) ++ "\n" ++ pad ind lvl ++ "]"
  | .jobj l =>
    match l with
    | [] => "\x7b\x7d"
    | x :: xs => "\x7b\n" ++ dumpObj ind (lvl + 1) (x :: xs) ++ "\n" ++ pad ind lvl ++ "\x7d"

def dumpArr (ind lvl : Nat) : List JVal → String
  | [] => ""
  | [x] => pad ind lvl ++ dumpJ ind lvl x
  | x :: y :: xs => pad ind lvl ++ dumpJ ind lvl x ++ ",\n" ++ dumpArr ind lvl (y :: xs)

def dumpObj (ind lvl : Nat) : List (String × JVal) → String
  | [] => ""
  | [(k, v)] => pad ind lvl ++ "\"" ++ jsonEscape k ++ "\": " ++ dumpJ ind lvl v
  | (k, v) :: y :: xs =>
    pad ind lvl ++ "\"" ++ jsonEscape k ++ "\": " ++ dumpJ ind lvl v ++ ",\n" ++
      dumpObj ind lvl (y :: xs)

end

/-- Python `str.replace` (all non-overlapping occurrences, left to right). -/
def pyReplace (s pat rep : String) : String :=
  ⟨replaceTok pat.data rep.data s.data⟩

/-- `_format_dict` (source lines 295-303): `json.dumps(d, indent=n)`, fix
boolean literal casing, then switch every double quote to the sniffed quote
character when it is a single quote. -/
def formatDict (d : JVal) (q : Char) (ind : Nat) : String :=
  let s := dumpJ ind 0 d
  let s := pyReplace s ": true" ": True"
  let s := pyReplace s ": false" ": False"
  if q = '\'' then pyReplace s "\"" "'" else s

def isPyWs (c : Char) : Bool :=
  c = ' ' ∨ c = '\t' ∨ c = '\n' ∨ c = '\r' ∨ c = '\x0b' ∨ c = '\x0c'

/-- Python `s.rstrip()`. -/
def rstrip (s : Chars) : Chars := (s.reverse.dropWhile isPyWs).reverse

/-- `s[1:len(s)-1].rstrip()` — drop the outer braces of a one-key dump and
trailing whitespace (source lines 271 and 282). -/
def stripOuterBraces (s : String) : String :=
  ⟨rstrip ((s.data.drop 1).dropLast)⟩

def takeChars (s : String) (n : Nat) : String := ⟨s.data.take n⟩
def dropChars (s : String) (n : Nat) : String := ⟨s.data.drop n⟩

def assetsJ (assets : List (String × List String)) : JVal :=
  .jobj (assets.map fun kv => (kv.1, .jarr (kv.2.map .jstr)))

/-- The text spliced in for the assets mapping. -/
def assetsText (assets : List (String × List String)) (q : Char) (ind : Nat) : String :=
  stripOuterBraces (formatDict (.jobj [("assets", assetsJ assets)]) q ind)

/-- `_inject_assets_dict` (source lines 268-276). -/
def injectAssetsDict (src : String) (assets : List (String × List String))
    (q : Char) (ind : Nat) : Except String String :=
  (findAssetsInjectIndex src).map fun idx =>
    let delim := if ¬ (charAt src.data (idx - 1) = some ',') then "," else ""
    takeChars src idx ++ delim ++ assetsText assets q ind ++ dropChars src idx

/-- The text spliced in for the replaced data list. -/
def dataListText (data : List String) (q : Char) (ind : Nat) : String :=
  stripOuterBraces (formatDict (.jobj [("data", .jarr (data.map .jstr))]) q ind)

/-- `_replace_data_list` (source lines 279-286). -/
def replaceDataList (src : String) (data : List String)
    (q : Char) (ind : Nat) : Except String String :=
  (findDataIndexRange src).map fun r =>
    takeChars src r.1 ++ dataListText data q ind ++ dropChars src r.2

/-- `_remove_qweb_list` (source lines 289-292). -/
def removeQwebList (src : String) : Except String String :=
  (findQwebIndexRange src).map fun r =>
    takeChars src r.1 ++ dropChars src r.2

/-- The manifest-update phase of `reformat_assets_definition` (source lines
112-121): inject the assets mapping when the accumulated dict is non-empty
(rooting the paths first), replace the data list when the original list was
non-empty and the copy differs, drop the qweb list when the manifest had
one; each step re-parses the source produced by the previous step. -/
def updateManifestSource (src : String) (assets : List (String × List String))
    (moduleName : String) (dataOrig dataNew : List String) (hasQweb : Bool)
    (q : Char) (ind : Nat) : Except String String :=
  (if assets ≠ [] then
      injectAssetsDict src (ensureAssetPaths assets moduleName) q ind
    else pure src).bind fun s1 =>
  (if dataOrig ≠ [] ∧ dataNew ≠ dataOrig then
      replaceDataList s1 dataNew q ind
    else pure s1).bind fun s2 =>
  if hasQweb then removeQwebList s2 else pure s2

/-! ### Assets accumulator (`defaultdict(list)` plus
`_add_asset_to_manifest` and the qweb merge, source lines 74, 92, 107-110).
The defaultdict is modelled as an insertion-ordered association list. -/

/-- `assets[k].append(v)` on a `defaultdict(list)`: appends to the existing
entry, or creates the key with a one-element list. -/
def ddAppend (d : List (String × List String)) (k v : String) :
    List (String × List String) :=
  if d.any (fun kv => kv.1 = k) then
    d.map (fun kv => if kv.1 = k then (kv.1, kv.2 ++ [v]) else kv)
  else d ++ [(k, [v])]

/-- `assets[k].extend(vs)` on a `defaultdict(list)`: extends the existing
entry, or creates the key holding `vs` — creating an empty entry when `vs`
is empty. -/
def ddExtend (d : List (String × List String)) (k : String) (vs : List String) :
    List (String × List String) :=
  if d.any (fun kv => kv.1 = k) then
    d.map (fun kv => if kv.1 = k then (kv.1, kv.2 ++ vs) else kv)
  else d ++ [(k, vs)]

/-- The assets mapping as built by `reformat_assets_definition`: every
`(bundle, path)` pair collected from the XML files is appended in traversal
order (`_add_asset_to_manifest`), then, when the manifest has a `qweb` key,
its list is merged into `web.assets_qweb` (source lines 107-110).  `qweb`
is `none` when the manifest has no such key. -/
def buildAssetsDict (collected : List (String × String))
    (qweb : Option (List String)) : List (String × List String) :=
  let d := collected.foldl (fun d p => ddAppend d p.1 p.2) []
  match qweb with
  | none => d
  | some qs => ddExtend d "web.assets_qweb" qs

/-! ### XML tree model (for the asset-bundle migrator).  `lxml` element
trees are modelled with an explicit node type: elements carry their tag,
attributes, text (the characters before the first child) and children;
comments and processing instructions are separate constructors.  Every node
carries its `tail` (the characters between it and the next sibling). -/

inductive XNode where
  | elem (tag : String) (attrs : List (String × String)) (text : Option String)
      (children : List XNode) (tail : Option String)
  | comm (content : String) (tail : Option String)
  | pinst (target : String) (content : String) (tail : Option String)
deriving Repr

def XNode.isElemB : XNode → Bool
  | .elem _ _ _ _ _ => true
  | _ => false

def XNode.childrenOf : XNode → List XNode
  | .elem _ _ _ ch _ => ch
  | _ => []

def XNode.tagOf : XNode → String
  | .elem t _ _ _ _ => t
  | _ => ""

/-- `node.get(k)` — attribute lookup; `None` for comments and processing
instructions. -/
def XNode.getAttr : XNode → String → Option String
  | .elem _ attrs _ _ _, k => attrs.lookup k
  | _, _ => none

mutual

/-- The element descendants of a node (Python
`[elem for elem in node.iter(tag=et.Element) if elem != node]`,
source line 198): `iter` yields elements only, and the node itself is
filtered out. -/
def elemDescs : XNode → List XNode
  | .elem _ _ _ ch _ => elemDescsList ch
  | _ => []

def elemDescsList : List XNode → List XNode
  | [] => []
  | c :: cs => (if c.isElemB then [c] else []) ++ elemDescs c ++ elemDescsList cs

end

/-- `_has_regular_subnodes` (source lines 195-199): the node has at least
one element descendant. -/
def hasRegularSubnodes (n : XNode) : Bool := !(elemDescs n).isEmpty

/-- The claim-side predicate: the node has at least one ELEMENT CHILD. -/
def hasElemChild (n : XNode) : Bool := n.childrenOf.any XNode.isElemB

/-- The truthy file path of a leaf:
`elem_file_path := file.get("src") or file.get("href")` followed by the
truthiness test of the walrus assignment (source line 91).  Python `or`
takes the right operand when the left is `None` or the empty string, and
the `if` fires only when the final value is non-empty. -/
def truthySrcHref (n : XNode) : Option String :=
  let v := match n.getAttr "src" with
    | some s => if s ≠ "" then some s else n.getAttr "href"
    | none => n.getAttr "href"
  match v with
  | some s => if s = "" then none else some s
  | none => none

/-- The inner loop over `xpath_elem.getchildren()` (source lines 90-93):
collect each truthy `src`/`href`, then remove the leaf unless it still has
element descendants.  Returns the children that survive and the collected
paths in order. -/
def processFiles : List XNode → List XNode × List String
  | [] => ([], [])
  | f :: fs =>
    let rest := processFiles fs
    match truthySrcHref f with
    | some p =>
      if hasRegularSubnodes f then (f :: rest.1, p :: rest.2)
      else (rest.1, p :: rest.2)
    | none => (f :: rest.1, rest.2)

/-- Processing of one `xpath[@expr]` element: its children go through the
leaf pass. -/
def processXpath : XNode → XNode × List String
  | .elem t a tx ch tl =>
    let r := processFiles ch
    (.elem t a tx r.1 tl, r.2)
  | n => (n, [])

/-- Whether a child is selected by `node.xpath("xpath[@expr]")`: an element
child tagged `xpath` carrying an `expr` attribute. -/
def isSelXpath (c : XNode) : Bool :=
  c.isElemB && c.tagOf = "xpath" && (c.getAttr "expr").isSome

/-- The loop over the selected xpath children of an inherit node (source
lines 89-95): each is processed innermost-first and then removed unless
element content remains under it; unselected children are untouched. -/
def processXpaths : List XNode → List XNode × List String
  | [] => ([], [])
  | c :: cs =>
    let rest := processXpaths cs
    if isSelXpath c then
      let r := processXpath c
      if hasRegularSubnodes r.1 then (r.1 :: rest.1, r.2 ++ rest.2)
      else (rest.1, r.2 ++ rest.2)
    else (c :: rest.1, rest.2)

/-- Processing of one inherit node: its children go through the xpath
pass. -/
def processNode : XNode → XNode × List String
  | .elem t a tx ch tl =>
    let r := processXpaths ch
    (.elem t a tx r.1 tl, r.2)
  | n => (n, [])

/-- `ASSET_VIEWS` (source lines 17-55). -/
def ASSET_VIEWS : List String :=
  ["mass_mailing.assets_backend",
   "mass_mailing.assets_mail_themes",
   "mass_mailing.assets_mail_themes_edition",
   "mrp.assets_common",
   "point_of_sale.assets",
   "point_of_sale.pos_assets_backend",
   "snailmail.report_assets_snailmail",
   "stock.assets_stock_print_report",
   "survey.survey_assets",
   "survey.survey_user_input_session_assets",
   "web.assets_backend",
   "web.assets_backend_prod_only",
   "web.assets_common",
   "web.assets_common_lazy",
   "web.assets_common_minimal_js",
   "web.assets_frontend",
   "web.assets_frontend_lazy",
   "web.assets_frontend_minimal_js",
   "web.assets_qweb",
   "web.assets_tests",
   "web.pdf_js_lib",
   "web.qunit_mobile_suite_tests",
   "web.qunit_suite_tests",
   "web.report_assets_common",
   "web.report_assets_pdf",
   "web.tests_assets",
   "website.assets_frontend",
   "website.assets_editor",
   "website.assets_frontend_editor",
   "website.assets_wysiwyg",
   "website_slides.slide_embed_assets",
   "website.test_bundle",
   "web_editor.assets_summernote",
   "web_editor.assets_wysiwyg",
   "web_enterprise.assets_backend",
   "web_enterprise.assets_common",
   "web_enterprise._assets_backend_helpers"]

/-- The loop over `tree.getchildren()` (source lines 84-96): children whose
`inherit_id` is in the allow-list are processed (xpaths, then the node
itself is removed unless element content remains); the collected paths are
tagged with the bundle identifier. -/
def processRootChildren : List XNode → List XNode × List (String × String)
  | [] => ([], [])
  | c :: cs =>
    let rest := processRootChildren cs
    match c.getAttr "inherit_id" with
    | some iid =>
      if iid ∈ ASSET_VIEWS then
        let r := processNode c
        let pairs := r.2.map (fun p => (iid, p))
        if hasRegularSubnodes r.1 then (r.1 :: rest.1, pairs ++ rest.2)
        else (rest.1, pairs ++ rest.2)
      else (c :: rest.1, rest.2)
    | none => (c :: rest.1, rest.2)

/-- Per-file migration of a parsed view tree. -/
def processRoot : XNode → XNode × List (String × String)
  | .elem t a tx ch tl =>
    let r := processRootChildren ch
    (.elem t a tx r.1 tl, r.2)
  | n => (n, [])

/-- Python `list.remove`: drop the first occurrence. -/
def removeFirstStr : List String → String → List String
  | [], _ => []
  | x :: xs, v => if x = v then xs else x :: removeFirstStr xs v

/-- Result of migrating one XML data file (source lines 82-105): the
rewritten tree, the collected `(bundle, path)` pairs, the updated data
list, and whether the file is deleted from disk (and its path dropped from
the data list) because no element content remains under the root. -/
structure FileStep where
  newRoot : XNode
  collected : List (String × String)
  newData : List String
  removedFile : Bool

def perFileStep (root : XNode) (path : String) (dataList : List String) :
    FileStep :=
  let r := processRoot root
  let rm := !hasRegularSubnodes r.1
  { newRoot := r.1
    collected := r.2
    newData := if rm then removeFirstStr dataList path else dataList
    removedFile := rm }

/-! ### XML text round trip (`_parse_xml_file`, source lines 124-142, and
`_serialize_xml_tree`, source lines 145-164).  The `lxml` behaviour the
source relies on is modelled explicitly: parsing keeps inter-tag whitespace
as text/tails, `et.indent(tree, space="  ")` rewrites whitespace-only
text/tails to two-space indentation (the algorithm of the standard
`ElementTree.indent`), and `tostring(..., xml_declaration=True,
encoding="utf-8")` emits a single-quoted declaration line followed by the
tree rendered from its stored text/tails, with attributes double-quoted and
childless, textless elements self-closed. -/

def EMPTY_LINE_PLACEHOLDER : String := "<?empty-line-oixbckyh?>"

/-- Split into lines, keeping the `\n` terminators (Python
`splitlines(keepends=True)` / file iteration for `\n`-terminated text). -/
def lineSplitAux (acc : Chars) : Chars → List Chars
  | [] => if acc = [] then [] else [acc.reverse]
  | '\n' :: rest => (acc.reverse ++ ['\n']) :: lineSplitAux [] rest
  | c :: rest => lineSplitAux (c :: acc) rest

/-- The blank-line pre-pass of `_parse_xml_file` (source lines 133-139):
every wholly-blank line is replaced by the placeholder processing
instruction followed by a newline. -/
def substituteBlankLines (s : Chars) : Chars :=
  ((lineSplitAux [] s).map (fun l =>
    if isBlankLine l then EMPTY_LINE_PLACEHOLDER.data ++ ['\n'] else l)).flatten

def xmlErrMsg : String := "XML parse error"

def xmlNameChar (c : Char) : Bool :=
  c.isAlphanum ∨ c = '_' ∨ c = '-' ∨ c = '.' ∨ c = ':'

/-- Split the input at the first occurrence of `pat`: the text before it
and the input after it. -/
def splitAtSub (pat : Chars) : Nat → Chars → Option (Chars × Chars)
  | 0, _ => none
  | fuel + 1, s =>
    if pat.isPrefixOf s then some ([], s.drop pat.length)
    else
      match s with
      | [] => none
      | c :: cs => (splitAtSub pat fuel cs).map (fun r => (c :: r.1, r.2))

def optOfStr (x : String) : Option String := if x = "" then none else some x

def XNode.setTail : XNode → Option String → XNode
  | .elem t a tx ch _, tl => .elem t a tx ch tl
  | .comm c _, tl => .comm c tl
  | .pinst t c _, tl => .pinst t c tl

def XNode.tailOf : XNode → Option String
  | .elem _ _ _ _ tl => tl
  | .comm _ tl => tl
  | .pinst _ _ tl => tl

/-- Attribute list of an opening tag: `name="value"` or `name='value'`
pairs separated by whitespace.  Returns the pairs and the input after
them. -/
def parseXmlAttrs : Nat → Chars → Except String (List (String × String) × Chars)
  | 0, _ => .error xmlErrMsg
  | fuel + 1, s =>
    let s1 := s.dropWhile isWsChar
    match s1 with
    | [] => .ok ([], [])
    | c :: _ =>
      if xmlNameChar c then
        let name := s1.takeWhile xmlNameChar
        match s1.dropWhile xmlNameChar with
        | '=' :: q :: r2 =>
          if q = '"' ∨ q = '\'' then
            let v := r2.takeWhile (fun d => ¬ (d = q))
            match r2.dropWhile (fun d => ¬ (d = q)) with
            | _ :: r4 =>
              (parseXmlAttrs fuel r4).map (fun rr => ((⟨name⟩, ⟨v⟩) :: rr.1, rr.2))
            | [] => .error xmlErrMsg
          else .error xmlErrMsg
        | _ => .error xmlErrMsg
      else .ok ([], s1)

mutual

/-- Parse one element starting at its `<`; its tail is left unset.
Returns the node and the input after the element. -/
def parseXmlElem : Nat → Chars → Except String (XNode × Chars)
  | 0, _ => .error xmlErrMsg
  | fuel + 1, s =>
    match s with
    | '<' :: rest =>
      let name := rest.takeWhile xmlNameChar
      if name = [] then .error xmlErrMsg
      else
        match parseXmlAttrs (fuel + 1) (rest.dropWhile xmlNameChar) with
        | .error e => .error e
        | .ok (attrs, r2) =>
          match r2 with
          | '/' :: '>' :: r3 => .ok (.elem ⟨name⟩ attrs none [] none, r3)
          | '>' :: r3 =>
            match parseXmlItems fuel r3 ⟨name⟩ with
            | .error e => .error e
            | .ok (text, children, r4) => .ok (.elem ⟨name⟩ attrs text children none, r4)
          | _ => .error xmlErrMsg
    | _ => .error xmlErrMsg

/-- Parse the content of an open element `name` (just after its `>`):
leading text, then a sequence of children each with its following tail,
until the matching closing tag. -/
def parseXmlItems : Nat → Chars → String → Except String (Option String × List XNode × Chars)
  | 0, _, _ => .error xmlErrMsg
  | fuel + 1, s, name =>
    let leading := s.takeWhile (fun c => ¬ (c = '<'))
    let r := s.dropWhile (fun c => ¬ (c = '<'))
    match r with
    | [] => .error xmlErrMsg
    | _ :: _ =>
      if ['<', '/'].isPrefixOf r then
        let r2 := r.drop 2
        if (⟨r2.takeWhile xmlNameChar⟩ : String) = name then
          match (r2.dropWhile xmlNameChar).dropWhile isWsChar with
          | '>' :: r4 => .ok (optOfStr ⟨leading⟩, [], r4)
          | _ => .error xmlErrMsg
        else .error xmlErrMsg
      else
        match parseXmlRest fuel r name [] with
        | .error e => .error e
        | .ok (children, r2) => .ok (optOfStr ⟨leading⟩, children, r2)

/-- Parse the remaining children of an open element `name`, the input
standing on a `<`. -/
def parseXmlRest : Nat → Chars → String → List XNode →
    Except String (List XNode × Chars)
  | 0, _, _, _ => .error xmlErrMsg
  | fuel + 1, s, name, acc =>
    if ['<', '/'].isPrefixOf s then
      let r2 := s.drop 2
      if (⟨r2.takeWhile xmlNameChar⟩ : String) = name then
        match (r2.dropWhile xmlNameChar).dropWhile isWsChar with
        | '>' :: r4 => .ok (acc.reverse, r4)
        | _ => .error xmlErrMsg
      else .error xmlErrMsg
    else
      match parseXmlChild fuel s with
      | .error e => .error e
      | .ok (node, r1) =>
        let tl := r1.takeWhile (fun c => ¬ (c = '<'))
        let r2 := r1.dropWhile (fun c => ¬ (c = '<'))
        match r2 with
        | [] => .error xmlErrMsg
        | _ :: _ => parseXmlRest fuel r2 name (node.setTail (optOfStr ⟨tl⟩) :: acc)

/-- Parse one child node (element, comment or processing instruction)
starting at its `<`; its tail is left unset. -/
def parseXmlChild : Nat → Chars → Except String (XNode × Chars)
  | 0, _ => .error xmlErrMsg
  | fuel + 1, s =>
    if "<!--".data.isPrefixOf s then
      match splitAtSub "-->".data (s.length + 1) (s.drop 4) with
      | none => .error xmlErrMsg
      | some (content, r) => .ok (.comm ⟨content⟩ none, r)
    else if ['<', '?'].isPrefixOf s then
      let r1 := s.drop 2
      let target : String := ⟨r1.takeWhile xmlNameChar⟩
      match r1.dropWhile xmlNameChar with
      | '?' :: '>' :: r2 => .ok (.pinst target "" none, r2)
      | ' ' :: r2 =>
        match splitAtSub "?>".data (r2.length + 1) r2 with
        | none => .error xmlErrMsg
        | some (content, r3) => .ok (.pinst target ⟨content⟩ none, r3)
      | _ => .error xmlErrMsg
    else parseXmlElem fuel s

end

/-- Parse an XML document: optional declaration, optional surrounding
whitespace, a single root element.  The blank-line placeholder substitution
of `_parse_xml_file` is applied first. -/
def parseXmlSource (src : String) : Except String XNode :=
  let s := substituteBlankLines src.data
  let fuel := s.length + 10
  let s1 := s.dropWhile isWsChar
  let s2 :=
    if "<?xml".data.isPrefixOf s1 then
      match splitAtSub "?>".data (s1.length + 1) s1 with
      | some (_, r) => r.dropWhile isWsChar
      | none => s1
    else s1
  match parseXmlElem fuel s2 with
  | .error e => .error e
  | .ok (root, r) =>
    if r.dropWhile isWsChar = [] then .ok root else .error xmlErrMsg

/-- Python falsy-or-whitespace test used by `ElementTree.indent`
(`not text or not text.strip()`). -/
def wsOrNoneS : Option String → Bool
  | none => true
  | some s => s.data.all isPyWs

/-- `"\n"` followed by `2 * lvl` spaces (the indentation string of level
`lvl` for `et.indent(tree, space="  ")`, `indent_spaces=2` in the
source). -/
def indentRep (lvl : Nat) : String :=
  "\n" ++ String.mk (List.replicate (lvl * 2) ' ')

def XNode.hasKids : XNode → Bool
  | .elem _ _ _ (_ :: _) _ => true
  | _ => false

/-- Tail rewriting of `_indent_children`: every child whose tail is
falsy-or-whitespace gets the child indentation, except the last, which gets
the parent level's indentation. -/
def indentTails (childInd lastInd : String) : List XNode → List XNode
  | [] => []
  | [c] => [c.setTail (if wsOrNoneS c.tailOf then some lastInd else c.tailOf)]
  | c :: c2 :: cs =>
    c.setTail (if wsOrNoneS c.tailOf then some childInd else c.tailOf) ::
      indentTails childInd lastInd (c2 :: cs)

mutual

/-- `_indent_children(elem, lvl)` of `ElementTree.indent` (which
`lxml.etree.indent` follows): rewrite a falsy-or-whitespace text to the
child indentation, recurse into children that themselves have children,
then rewrite the tails. -/
def indentNode (lvl : Nat) : XNode → XNode
  | .elem t a tx [] tl => .elem t a tx [] tl
  | .elem t a tx (c :: cs) tl =>
    let tx' := if wsOrNoneS tx then some (indentRep (lvl + 1)) else tx
    .elem t a tx' (indentTails (indentRep (lvl + 1)) (indentRep lvl)
      (indentKids (lvl + 1) (c :: cs))) tl
  | n => n

def indentKids (lvl : Nat) : List XNode → List XNode
  | [] => []
  | c :: cs => (if c.hasKids then indentNode lvl c else c) :: indentKids lvl cs

end

/-- `et.indent(tree, space="  ")`: no-op on a childless root. -/
def indentTree (root : XNode) : XNode :=
  if root.hasKids then indentNode 0 root else root

def renderAttrs (attrs : List (String × String)) : String :=
  attrs.foldl (fun acc kv => acc ++ " " ++ kv.1 ++ "=\"" ++ kv.2 ++ "\"") ""

mutual

/-- Serialization of one node as `lxml.etree.tostring` renders it:
attributes double-quoted, childless and textless elements self-closed,
stored text/tails emitted verbatim. -/
def renderNode : XNode → String
  | .elem t a tx ch tl =>
    (match tx, ch with
     | none, [] => "<" ++ t ++ renderAttrs a ++ "/>"
     | _, _ =>
       "<" ++ t ++ renderAttrs a ++ ">" ++ (tx.getD "") ++ renderKids ch ++
         "</" ++ t ++ ">") ++ (tl.getD "")
  | .comm c tl => "<!--" ++ c ++ "-->" ++ (tl.getD "")
  | .pinst tgt c tl =>
    "<?" ++ tgt ++ (if c = "" then "" else " " ++ c) ++ "?>" ++ (tl.getD "")

def renderKids : List XNode → String
  | [] => ""
  | c :: cs => renderNode c ++ renderKids cs

end

/-- Python `str.strip()`. -/
def stripWs (l : Chars) : Chars :=
  ((l.dropWhile isPyWs).reverse.dropWhile isPyWs).reverse

/-- The declaration-line fix of `_serialize_xml_tree` (source line 161):
`re.sub(r"(\w+)='([^']*)'", "\\1=\"\\2\"", raw_line)` — every single-quoted
attribute value directly preceded by `word=` is re-quoted with double
quotes. -/
def fdq : Nat → Bool → Chars → Chars
  | 0, _, s => s
  | fuel + 1, prevWord, s =>
    match s with
    | [] => []
    | '=' :: '\'' :: rest =>
      let inner := rest.takeWhile (fun c => ¬ (c = '\''))
      let after := rest.drop inner.length
      if prevWord then
        match after with
        | '\'' :: rest2 => '=' :: '"' :: (inner ++ ('"' :: fdq fuel false rest2))
        | _ => '=' :: '\'' :: fdq fuel false rest
      else '=' :: '\'' :: fdq fuel false rest
    | c :: rest => c :: fdq fuel (c.isAlphanum ∨ c = '_') rest

/-- The per-line post-processing of `_serialize_xml_tree` (source lines
155-162): a placeholder line becomes a true blank line, the declaration
line has its single-quoted attributes normalized to double quotes, every
other line is kept. -/
def restoreLine (l : Chars) : Chars :=
  let stripped := stripWs l
  if stripped = EMPTY_LINE_PLACEHOLDER.data then ['\n']
  else if "<?xml".data.isPrefixOf stripped then fdq (l.length + 1) false l
  else l

/-- `_serialize_xml_tree` (source lines 145-164): `et.indent` with
two-space indentation, `tostring` with pretty printing and an XML
declaration (single-quoted, lowercase `utf-8`, followed by a newline, with
a final newline after the root), then the per-line post-processing. -/
def serializeXmlTree (root : XNode) : String :=
  let r := indentTree root
  let raw := "<?xml version='1.0' encoding='utf-8'?>\n" ++ renderNode r ++ "\n"
  ⟨((lineSplitAux [] raw.data).map restoreLine).flatten⟩

/-- The migrate-then-reserialize pipeline applied to one view file's text:
parse with blank-line placeholders, run the asset-bundle extraction over
the root's children, reserialize.  Returns the new text and the collected
`(bundle, path)` pairs. -/
def migrateXmlText (s : String) : Except String (String × List (String × String)) :=
  (parseXmlSource s).map fun root =>
    let r := processRoot root
    (serializeXmlTree r.1, r.2)

/-! ### Claim-side (specification) definitions, used to state the theorems
about the locators. -/

def exceptIsOk {α : Type} : Except String α → Bool
  | .ok _ => true
  | .error _ => false

/-- Index of the first pair carrying `key`. -/
def keyIdx (key : String) : List MPair → Option Nat
  | [] => none
  | p :: ps => if p.key = key then some 0 else (keyIdx key ps).map (· + 1)

def dummyPair : MPair := ⟨"", ⟨0, 0⟩⟩

def pairAt : List MPair → Nat → MPair
  | [], _ => dummyPair
  | p :: _, 0 => p
  | _ :: ps, n + 1 => pairAt ps n

/-- The token preceding pair `i`: the mapping's opening brace for the first
pair, otherwise the previous value's last token. -/
def prevTokA (d : MDict) (i : Nat) : Tok :=
  match i with
  | 0 => d.firstTok
  | j + 1 => (pairAt d.pairs j).valTok

/-- The span the locators actually compute (the amended form of claim C1):
start is ONE PLUS THE START OFFSET of the previous value's last token (or
of the opening brace), advanced past a comma only for the data locator;
end is the end offset of the matched value's last token. -/
def amendedKeyRange (src : String) (d : MDict) (key : String)
    (skipComma : Bool) (msg : String) : Except String (Nat × Nat) :=
  match keyIdx key d.pairs with
  | none => .error msg
  | some i =>
    let prev := prevTokA d i
    let s0 := prev.startpos + 1
    let s1 := if skipComma ∧ charAt src.data s0 = some ',' then s0 + 1 else s0
    .ok (s1, (pairAt d.pairs i).valTok.endpos)

/-- The span claim C1 describes: start is the END offset of the previous
value's last token (or of the opening brace), adjusted to skip a leading
comma; end as in the code. -/
def claimKeyRange (src : String) (d : MDict) (key : String) : Option (Nat × Nat) :=
  match keyIdx key d.pairs with
  | none => none
  | some i =>
    let prev := prevTokA d i
    let s0 := prev.endpos
    let s1 := if charAt src.data s0 = some ',' then s0 + 1 else s0
    some (s1, (pairAt d.pairs i).valTok.endpos)

/-! ### Concrete inputs used by counterexamples and witnesses. -/

/-- A manifest whose `data` key is preceded by a string value: the previous
value's last token `'ab'` spans offsets 9-13. -/
def cexManifest : String := "\x7b'name': 'ab', 'data': []\x7d"

/-- The offset-annotated parse of `cexManifest`. -/
def cexManifestParse : MDict :=
  ⟨⟨0, 1⟩, [⟨"name", ⟨9, 13⟩⟩, ⟨"data", ⟨24, 25⟩⟩]⟩

/-- A manifest without a `data` or `qweb` key. -/
def cexNoKeyManifest : String := "\x7b'name': 1\x7d"

/-- The offset-annotated parse of `cexNoKeyManifest`. -/
def cexNoKeyParse : MDict := ⟨⟨0, 1⟩, [⟨"name", ⟨9, 10⟩⟩]⟩

/-- A manifest with a `data` list preceded by a string value, used to show
the data replacement corrupting the source. -/
def cexDataManifest : String := "\x7b'name': 'ab', 'data': ['a.xml', 'b.xml']\x7d"

/-- A four-space-indented manifest whose keys are preceded by single
character tokens, with `data` first and `qweb` second. -/
def refManifest : String := "\x7b\n    'data': [],\n    'qweb': [],\n\x7d"

/-- The output of the update pipeline on `refManifest` with the assets
mapping `web.assets_qweb ↦ []`, no data change and qweb removal. -/
def refManifestAfter : String :=
  "\x7b\n    'data': [],\n    'assets': \x7b\n        'web.assets_qweb': []\n    \x7d\n\x7d"

/-- A well-formed manifest whose edits all sit after single-character
tokens, with a changed data list and a qweb key. -/
def goodManifest : String :=
  "\x7b\n    'data': ['a.xml', 'b.xml'],\n    'qweb': ['t.xml'],\n\x7d"

def xmlDecl : String := "<?xml version=\"1.0\" encoding=\"utf-8\"?>"

/-- A two-space-indented view file with a blank line between two sibling
elements and no asset-bundle inherit nodes. -/
def xmlInput2 : String :=
  xmlDecl ++ "\n<odoo>\n  <record id=\"a\"/>\n\n  <record id=\"b\"/>\n</odoo>\n"

/-- The same document indented with four spaces. -/
def xmlInput4 : String :=
  xmlDecl ++ "\n<odoo>\n    <record id=\"a\"/>\n\n    <record id=\"b\"/>\n</odoo>\n"

/-- The tree `xmlInput2` parses to: the blank line appears as the
placeholder processing instruction between the two record elements. -/
def xmlParsed2 : XNode :=
  .elem "odoo" [] (some "\n  ")
    [.elem "record" [("id", "a")] none [] (some "\n"),
     .pinst "empty-line-oixbckyh" "" (some "\n  "),
     .elem "record" [("id", "b")] none [] (some "\n")]
    none

/-- The single-quoted declaration line `tostring` emits (without its
newline). -/
def declRawLine : Chars := "<?xml version='1.0' encoding='utf-8'?>".data

/-- A text containing `t-raw` and `t-esc` both as an attribute name and as
plain text. -/
def cex8In : String := "<t t-esc=\"a\"/><p>t-raw and t-esc</p>"

def cex8Out : String := "<t t-out=\"a\"/><p>t-out and t-out</p>"

/-! ## Helper lemmas -/

theorem bindPureExcept (e : Except String String) :
    e.bind (fun s => (pure s : Except String String)) = e := by
  cases e <;> rfl

theorem elemDescsListIsEmpty (ch : List XNode) :
    (elemDescsList ch).isEmpty = !ch.any XNode.isElemB := by
  induction ch with
  | nil => simp [elemDescsList]
  | cons c cs ih =>
    cases c <;>
      simp [elemDescsList, elemDescs, XNode.isElemB, ih]

theorem hasRegularSubnodesEqHasElemChild (n : XNode) :
    hasRegularSubnodes n = hasElemChild n := by
  cases n with
  | elem t a tx ch tl =>
    simp [hasRegularSubnodes, hasElemChild, elemDescs, XNode.childrenOf,
      elemDescsListIsEmpty]
  | comm c tl => rfl
  | pinst tg c tl => rfl

theorem findDataLoopEq (s : Chars) :
    ∀ (ps : List MPair) (prev : Tok),
      findDataLoop s prev ps =
        match keyIdx "data" ps with
        | none => .error dataErrMsg
        | some i =>
          let pv := match i with | 0 => prev | j + 1 => (pairAt ps j).valTok
          let s0 := pv.startpos + 1
          .ok (if charAt s s0 = some ',' then s0 + 1 else s0, (pairAt ps i).valTok.endpos) := by
  intro ps
  induction ps with
  | nil => intro prev; rfl
  | cons p ps ih =>
    intro prev
    by_cases hk : p.key = "data"
    · simp [findDataLoop, keyIdx, hk, pairAt]
    · rw [show findDataLoop s prev (p :: ps) = findDataLoop s p.valTok ps by
        simp [findDataLoop, hk]]
      rw [ih p.valTok]
      have hkeq : keyIdx "data" (p :: ps) = (keyIdx "data" ps).map (· + 1) := by
        simp [keyIdx, hk]
      rw [hkeq]
      cases hkidx : keyIdx "data" ps with
      | none => rfl
      | some i => cases i <;> simp [pairAt]

theorem findQwebLoopEq (s : Chars) :
    ∀ (ps : List MPair) (prev : Tok),
      findQwebLoop s prev ps =
        match keyIdx "qweb" ps with
        | none => .error qwebErrMsg
        | some i =>
          let pv := match i with | 0 => prev | j + 1 => (pairAt ps j).valTok
          .ok (pv.startpos + 1, (pairAt ps i).valTok.endpos) := by
  intro ps
  induction ps with
  | nil => intro prev; rfl
  | cons p ps ih =>
    intro prev
    by_cases hk : p.key = "qweb"
    · simp [findQwebLoop, keyIdx, hk, pairAt]
    · rw [show findQwebLoop s prev (p :: ps) = findQwebLoop s p.valTok ps by
        simp [findQwebLoop, hk]]
      rw [ih p.valTok]
      have hkeq : keyIdx "qweb" (p :: ps) = (keyIdx "qweb" ps).map (· + 1) := by
        simp [keyIdx, hk]
      rw [hkeq]
      cases hkidx : keyIdx "qweb" ps with
      | none => rfl
      | some i => cases i <;> simp [pairAt]

theorem keyIdxNoneIff (key : String) :
    ∀ ps : List MPair, keyIdx key ps = none ↔ ∀ p ∈ ps, p.key ≠ key := by
  intro ps
  induction ps with
  | nil => simp [keyIdx]
  | cons p ps ih =>
    by_cases hk : p.key = key <;> simp [keyIdx, hk, ih]

def keyPresent (d : List (String × List String)) (k : String) : Bool :=
  d.any (fun kv => kv.1 = k)

theorem ddAppendValsNeNil (d : List (String × List String)) (k v : String)
    (h : ∀ kv ∈ d, kv.2 ≠ []) : ∀ kv ∈ ddAppend d k v, kv.2 ≠ [] := by
  intro kv hkv
  unfold ddAppend at hkv
  by_cases hp : d.any (fun kv => kv.1 = k)
  · rw [if_pos hp] at hkv
    obtain ⟨kv0, hkv0, hmap⟩ := List.mem_map.mp hkv
    by_cases he : kv0.1 = k
    · rw [if_pos he] at hmap
      rw [← hmap]
      simp
    · rw [if_neg he] at hmap
      exact hmap ▸ h kv0 hkv0
  · rw [if_neg hp] at hkv
    rcases List.mem_append.mp hkv with hin | hone
    · exact h kv hin
    · have : kv = (k, [v]) := by simpa using hone
      rw [this]
      simp

theorem foldlDdAppendValsNeNil :
    ∀ (collected : List (String × String)) (d : List (String × List String)),
      (∀ kv ∈ d, kv.2 ≠ []) →
      ∀ kv ∈ collected.foldl (fun d p => ddAppend d p.1 p.2) d, kv.2 ≠ [] := by
  intro collected
  induction collected with
  | nil => intro d h kv hkv; exact h kv hkv
  | cons pr prs ih =>
    intro d h kv hkv
    exact ih (ddAppend d pr.1 pr.2) (ddAppendValsNeNil d pr.1 pr.2 h) kv hkv

theorem ddAppendKeyPresentSelf (d : List (String × List String)) (k v : String) :
    keyPresent (ddAppend d k v) k = true := by
  unfold ddAppend keyPresent
  by_cases hp : d.any (fun kv => kv.1 = k)
  · rw [if_pos hp]
    obtain ⟨kv0, hkv0, hk0⟩ := List.any_eq_true.mp hp
    refine List.any_eq_true.mpr ⟨(kv0.1, kv0.2 ++ [v]), ?_, by simpa using hk0⟩
    refine List.mem_map.mpr ⟨kv0, hkv0, ?_⟩
    rw [if_pos (by simpa using hk0)]
  · rw [if_neg hp]
    exact List.any_eq_true.mpr ⟨(k, [v]), by simp, by simp⟩

theorem ddAppendKeyPresentMono (d : List (String × List String)) (k v k2 : String)
    (h : keyPresent d k2 = true) : keyPresent (ddAppend d k v) k2 = true := by
  unfold ddAppend keyPresent
  obtain ⟨kv0, hkv0, hk0⟩ := List.any_eq_true.mp h
  by_cases hp : d.any (fun kv => kv.1 = k)
  · rw [if_pos hp]
    by_cases he : kv0.1 = k
    · refine List.any_eq_true.mpr ⟨(kv0.1, kv0.2 ++ [v]), ?_, by simpa using hk0⟩
      exact List.mem_map.mpr ⟨kv0, hkv0, by rw [if_pos he]⟩
    · refine List.any_eq_true.mpr ⟨kv0, ?_, hk0⟩
      exact List.mem_map.mpr ⟨kv0, hkv0, by rw [if_neg he]⟩
  · rw [if_neg hp]
    exact List.any_eq_true.mpr ⟨kv0, List.mem_append_left _ hkv0, hk0⟩

theorem foldlKeyPresent :
    ∀ (collected : List (String × String)) (d : List (String × List String))
      (pr : String × String), pr ∈ collected ∨ keyPresent d pr.1 = true →
      keyPresent (collected.foldl (fun d p => ddAppend d p.1 p.2) d) pr.1 = true := by
  intro collected
  induction collected with
  | nil =>
    intro d pr h
    rcases h with h | h
    · cases h
    · exact h
  | cons q qs ih =>
    intro d pr h
    rcases h with h | h
    · rcases List.mem_cons.mp h with rfl | hin
      · exact ih (ddAppend d pr.1 pr.2) pr (Or.inr (ddAppendKeyPresentSelf d pr.1 pr.2))
      · exact ih (ddAppend d q.1 q.2) pr (Or.inl hin)
    · exact ih (ddAppend d q.1 q.2) pr (Or.inr (ddAppendKeyPresentMono d q.1 q.2 pr.1 h))

theorem ddExtendEmptyAnalysis (d : List (String × List String)) (k : String)
    (vs : List String) (kv : String × List String)
    (hall : ∀ kv' ∈ d, kv'.2 ≠ []) (hmem : kv ∈ ddExtend d k vs)
    (hnil : kv.2 = []) : kv.1 = k ∧ vs = [] ∧ keyPresent d k = false := by
  unfold ddExtend at hmem
  by_cases hp : d.any (fun kv => kv.1 = k)
  · rw [if_pos hp] at hmem
    obtain ⟨kv0, hkv0, hmap⟩ := List.mem_map.mp hmem
    by_cases he : kv0.1 = k
    · rw [if_pos he] at hmap
      rw [← hmap] at hnil
      simp at hnil
      exact absurd hnil.1 (hall kv0 hkv0)
    · rw [if_neg he] at hmap
      exact absurd (hmap ▸ hnil) (hall kv0 hkv0)
  · rw [if_neg hp] at hmem
    rcases List.mem_append.mp hmem with hin | hone
    · exact absurd hnil (hall kv hin)
    · have hkv : kv = (k, vs) := by simpa using hone
      refine ⟨by rw [hkv], ?_, by unfold keyPresent; exact Bool.eq_false_iff.mpr hp⟩
      rw [hkv] at hnil
      exact hnil

theorem splitTokFNeNil (fuel : Nat) (tok s : Chars) : splitTokF fuel tok s ≠ [] := by
  cases fuel with
  | zero => simp [splitTokF]
  | succ fuel =>
    cases s with
    | nil => simp [splitTokF]
    | cons c cs =>
      rw [splitTokF]
      split
      · simp
      · split <;> simp

theorem joinWithConsHead (rep : Chars) (c : Char) (p : Chars) (ps : List Chars) :
    joinWith rep ((c :: p) :: ps) = c :: joinWith rep (p :: ps) := by
  cases ps <;> simp [joinWith]

theorem splitTokFHeadPrefix (fuel : Nat) :
    ∀ (tok s : Chars), ∃ p ps, splitTokF fuel tok s = p :: ps ∧ p <+: s := by
  induction fuel with
  | zero => intro tok s; exact ⟨s, [], rfl, List.prefix_refl s⟩
  | succ fuel ih =>
    intro tok s
    cases s with
    | nil => exact ⟨[], [], rfl, List.nil_prefix⟩
    | cons c cs =>
      rw [splitTokF]
      split
      · exact ⟨[], _, rfl, List.nil_prefix⟩
      · obtain ⟨p, ps, heq, hpre⟩ := ih tok cs
        rw [heq]
        exact ⟨c :: p, ps, rfl, List.cons_prefix_cons.mpr ⟨rfl, hpre⟩⟩

theorem splitTokFJoin :
    ∀ (fuel : Nat) (tok s : Chars), s.length < fuel →
      joinWith tok (splitTokF fuel tok s) = s := by
  intro fuel
  induction fuel with
  | zero => intro tok s h; cases h
  | succ fuel ih =>
    intro tok s hlen
    cases s with
    | nil => rfl
    | cons c cs =>
      rw [splitTokF]
      split
      · rename_i h
        have hpre : tok <+: c :: cs := List.isPrefixOf_iff_prefix.mp h.2
        obtain ⟨t, ht⟩ := hpre
        have hdrop : List.drop tok.length (c :: cs) = t := by
          rw [← ht, List.drop_left]
        rw [hdrop]
        have htlen : t.length < fuel := by
          have h1 : tok.length + t.length = cs.length + 1 := by
            have := congrArg List.length ht
            simpa using this
          have h2 : 0 < tok.length := List.length_pos.mpr h.1
          simp only [List.length_cons] at hlen
          omega
        obtain ⟨p, ps, heq, _⟩ := splitTokFHeadPrefix fuel tok t
        rw [heq]
        show ([] : Chars) ++ tok ++ joinWith tok (p :: ps) = c :: cs
        rw [← heq, ih tok t htlen]
        simpa using ht
      · obtain ⟨p, ps, heq, _⟩ := splitTokFHeadPrefix fuel tok cs
        rw [heq, joinWithConsHead, ← heq,
          ih tok cs (by simp only [List.length_cons] at hlen; omega)]

theorem occursInCons (tok : Chars) (c : Char) (p : Chars) :
    occursIn tok (c :: p) → tok <+: (c :: p) ∨ occursIn tok p := by
  rintro ⟨i, hi⟩
  cases i with
  | zero => exact Or.inl hi
  | succ j => exact Or.inr ⟨j, hi⟩

theorem splitTokFFree :
    ∀ (fuel : Nat) (tok s : Chars), s.length < fuel → tok ≠ [] →
      ∀ p ∈ splitTokF fuel tok s, ¬ occursIn tok p := by
  intro fuel
  induction fuel with
  | zero => intro tok s h; cases h
  | succ fuel ih =>
    intro tok s hlen htok p hp
    cases s with
    | nil =>
      have : p = [] := by simpa [splitTokF] using hp
      rintro ⟨i, hi⟩
      rw [this] at hi
      simp at hi
      exact htok hi
    | cons c cs =>
      rw [splitTokF] at hp
      revert hp
      split
      · rename_i h
        intro hp
        rcases List.mem_cons.mp hp with rfl | hrest
        · rintro ⟨i, hi⟩
          simp at hi
          exact htok hi
        · have hpre : tok <+: c :: cs := List.isPrefixOf_iff_prefix.mp h.2
          obtain ⟨t, ht⟩ := hpre
          have hdrop : List.drop tok.length (c :: cs) = t := by
            rw [← ht, List.drop_left]
          rw [hdrop] at hrest
          have htlen : t.length < fuel := by
            have h1 : tok.length + t.length = cs.length + 1 := by
              have := congrArg List.length ht
              simpa using this
            have h2 : 0 < tok.length := List.length_pos.mpr h.1
            simp only [List.length_cons] at hlen
            omega
          exact ih tok t htlen htok p hrest
      · rename_i h
        intro hp
        have hnp : ¬ tok.isPrefixOf (c :: cs) := by
          intro hc
          exact h ⟨htok, hc⟩
        obtain ⟨p0, ps0, heq, hp0pre⟩ := splitTokFHeadPrefix fuel tok cs
        rw [heq] at hp
        have hcs : cs.length < fuel := by
          simp only [List.length_cons] at hlen
          omega
        rcases List.mem_cons.mp hp with rfl | hrest
        · intro hocc
          rcases occursInCons tok c p0 hocc with hpre | hocc0
          · apply hnp
            apply List.isPrefixOf_iff_prefix.mpr
            exact hpre.trans (List.cons_prefix_cons.mpr ⟨rfl, hp0pre⟩)
          · exact ih tok cs hcs htok p0 (heq ▸ List.mem_cons_self p0 ps0) hocc0
        · exact ih tok cs hcs htok p (heq ▸ List.mem_cons_of_mem p0 hrest)

theorem foldlAppendVotes (ls : List Chars) :
    ∀ acc : List Nat, ls.foldl (fun a l => a ++ indentVotesLine l) acc =
      acc ++ (ls.map indentVotesLine).flatten := by
  induction ls with
  | nil => intro acc; simp
  | cons l ls ih => intro acc; simp [ih, List.append_assoc]

theorem counterKeysFMem (fuel : Nat) :
    ∀ (l : List Nat) (a : Nat), l.length < fuel →
      (a ∈ counterKeysF fuel l ↔ a ∈ l) := by
  induction fuel with
  | zero => intro l a h; cases h
  | succ fuel ih =>
    intro l a hlen
    cases l with
    | nil => simp [counterKeysF]
    | cons v vs =>
      rw [counterKeysF]
      have hflen : (vs.filter (fun w => ¬ (w = v))).length < fuel := by
        have := List.length_filter_le (fun w => decide (¬ (w = v))) vs
        simp only [List.length_cons] at hlen
        omega
      by_cases hv : a = v
      · simp [hv]
      · simp only [List.mem_cons, ih _ a hflen, List.mem_filter]
        constructor
        · rintro (rfl | ⟨hin, _⟩)
          · exact Or.inl rfl
          · exact Or.inr hin
        · rintro (rfl | hin)
          · exact Or.inl rfl
          · exact Or.inr ⟨hin, by simpa using hv⟩

theorem firstIdxFilterLe (v : Nat) :
    ∀ (l : List Nat) (a b : Nat), ¬ (a = v) → ¬ (b = v) →
      firstIdx a (l.filter (fun w => ¬ (w = v))) ≤ firstIdx b (l.filter (fun w => ¬ (w = v))) →
      firstIdx a l ≤ firstIdx b l := by
  intro l
  induction l with
  | nil => intro a b _ _ h; exact h
  | cons w l ih =>
    intro a b ha hb h
    by_cases hw : w = v
    · rw [List.filter_cons_of_neg (by simpa using hw)] at h
      have ha' : ¬ (w = a) := fun hc => ha (hc ▸ hw)
      have hb' : ¬ (w = b) := fun hc => hb (hc ▸ hw)
      simp only [firstIdx, if_neg ha', if_neg hb']
      exact Nat.succ_le_succ (ih a b ha hb h)
    · rw [List.filter_cons_of_pos (by simpa using hw)] at h
      by_cases hwa : w = a
      · simp [firstIdx, hwa]
      · by_cases hwb : w = b
        · simp only [firstIdx, if_pos hwb, if_neg hwa] at h
          omega
        · simp only [firstIdx, if_neg hwa, if_neg hwb] at h ⊢
          exact Nat.succ_le_succ (ih a b ha hb (Nat.le_of_succ_le_succ h))

theorem counterKeysFSorted (fuel : Nat) :
    ∀ l : List Nat, l.length < fuel →
      (counterKeysF fuel l).Pairwise (fun a b => firstIdx a l ≤ firstIdx b l) := by
  induction fuel with
  | zero => intro l h; cases h
  | succ fuel ih =>
    intro l hlen
    cases l with
    | nil => simp [counterKeysF]
    | cons v vs =>
      rw [counterKeysF]
      have hflen : (vs.filter (fun w => ¬ (w = v))).length < fuel := by
        have := List.length_filter_le (fun w => decide (¬ (w = v))) vs
        simp only [List.length_cons] at hlen
        omega
      refine List.Pairwise.cons ?_ ?_
      · intro b _
        simp [firstIdx]
      · have htail := ih _ hflen
        refine htail.imp_of_mem ?_
        intro a b hma hmb hle
        have hfa := (counterKeysFMem fuel _ a hflen).mp hma
        have hfb := (counterKeysFMem fuel _ b hflen).mp hmb
        have hav : ¬ (a = v) := by
          have := List.mem_filter.mp hfa
          simpa using this.2
        have hbv : ¬ (b = v) := by
          have := List.mem_filter.mp hfb
          simpa using this.2
        have hvs := firstIdxFilterLe v vs a b hav hbv hle
        have ha' : ¬ (v = a) := fun hc => hav hc.symm
        have hb' : ¬ (v = b) := fun hc => hbv hc.symm
        simp only [firstIdx, if_neg ha', if_neg hb']
        exact Nat.succ_le_succ hvs

theorem foldPickProps (votes : List Nat) :
    ∀ (ks : List Nat) (best : Nat),
      (best :: ks).Pairwise (fun a b => firstIdx a votes ≤ firstIdx b votes) →
      (ks.foldl (fun b k2 => if countN k2 votes > countN b votes then k2 else b) best ∈
         best :: ks) ∧
      (∀ k ∈ best :: ks, countN k votes ≤
        countN (ks.foldl (fun b k2 => if countN k2 votes > countN b votes then k2 else b) best) votes) ∧
      (∀ k ∈ best :: ks, countN k votes =
        countN (ks.foldl (fun b k2 => if countN k2 votes > countN b votes then k2 else b) best) votes →
        firstIdx (ks.foldl (fun b k2 => if countN k2 votes > countN b votes then k2 else b) best) votes ≤
          firstIdx k votes) := by
  intro ks
  induction ks with
  | nil =>
    intro best _
    simp only [List.foldl_nil]
    refine ⟨List.mem_singleton.mpr rfl, ?_, ?_⟩
    · intro k hk
      rw [List.mem_singleton.mp hk]
    · intro k hk _
      rw [List.mem_singleton.mp hk]
  | cons k2 ks ih =>
    intro best hpw
    have hbk2 : firstIdx best votes ≤ firstIdx k2 votes :=
      (List.pairwise_cons.mp hpw).1 k2 (List.mem_cons_self _ _)
    have hpw2 : (k2 :: ks).Pairwise (fun a b => firstIdx a votes ≤ firstIdx b votes) :=
      (List.pairwise_cons.mp hpw).2
    have hbks : ∀ y ∈ ks, firstIdx best votes ≤ firstIdx y votes := by
      intro y hy
      exact (List.pairwise_cons.mp hpw).1 y (List.mem_cons_of_mem _ hy)
    have hkspw : ks.Pairwise (fun a b => firstIdx a votes ≤ firstIdx b votes) :=
      (List.pairwise_cons.mp hpw2).2
    rw [List.foldl_cons]
    by_cases hgt : countN k2 votes > countN best votes
    · rw [if_pos hgt]
      obtain ⟨hmem, hmax, htie⟩ := ih k2 hpw2
      refine ⟨?_, ?_, ?_⟩
      · rcases List.mem_cons.mp hmem with h | h
        · rw [h]
          exact List.mem_cons_of_mem _ (List.mem_cons_self _ _)
        · exact List.mem_cons_of_mem _ (List.mem_cons_of_mem _ h)
      · intro k hk
        rcases List.mem_cons.mp hk with heq | hk'
        · rw [heq]
          exact Nat.le_trans (Nat.le_of_lt hgt) (hmax k2 (List.mem_cons_self _ _))
        · exact hmax k hk'
      · intro k hk heqc
        rcases List.mem_cons.mp hk with heq | hk'
        · exfalso
          have h1 := hmax k2 (List.mem_cons_self _ _)
          rw [heq] at heqc
          omega
        · exact htie k hk' heqc
    · rw [if_neg hgt]
      have hnpw : (best :: ks).Pairwise (fun a b => firstIdx a votes ≤ firstIdx b votes) :=
        List.pairwise_cons.mpr ⟨hbks, hkspw⟩
      obtain ⟨hmem, hmax, htie⟩ := ih best hnpw
      refine ⟨?_, ?_, ?_⟩
      · rcases List.mem_cons.mp hmem with h | h
        · rw [h]
          exact List.mem_cons_self _ _
        · exact List.mem_cons_of_mem _ (List.mem_cons_of_mem _ h)
      · intro k hk
        rcases List.mem_cons.mp hk with heq | hk'
        · rw [heq]
          exact hmax best (List.mem_cons_self _ _)
        · rcases List.mem_cons.mp hk' with heq2 | hk''
          · rw [heq2]
            exact Nat.le_trans (Nat.le_of_not_lt hgt) (hmax best (List.mem_cons_self _ _))
          · exact hmax k (List.mem_cons_of_mem _ hk'')
      · intro k hk heqc
        rcases List.mem_cons.mp hk with heq | hk'
        · rw [heq] at heqc ⊢
          exact htie best (List.mem_cons_self _ _) heqc
        · rcases List.mem_cons.mp hk' with heq2 | hk''
          · rw [heq2] at heqc ⊢
            have h1 : countN k2 votes ≤ countN best votes := Nat.le_of_not_lt hgt
            have h2 := hmax best (List.mem_cons_self _ _)
            have h3 : countN best votes =
                countN (ks.foldl (fun b k2 => if countN k2 votes > countN b votes then k2 else b) best) votes := by
              omega
            exact Nat.le_trans (htie best (List.mem_cons_self _ _) h3) hbk2
          · exact htie k (List.mem_cons_of_mem _ hk'') heqc

theorem counterKeysNilIff (votes : List Nat) : counterKeys votes = [] ↔ votes = [] := by
  cases votes <;> simp [counterKeys, counterKeysF]

theorem lineSplitAuxConsNe (acc : Chars) (c : Char) (rest : Chars)
    (hc : ¬ (c = '\n')) :
    lineSplitAux acc (c :: rest) = lineSplitAux (c :: acc) rest := by
  rw [lineSplitAux.eq_def]
  split
  · rename_i heq
    cases heq
  · rename_i heq
    injection heq with h1 _
    exact absurd h1 hc
  · rename_i heq
    injection heq with h1 h2
    rw [h1, h2]

theorem lineSplitAuxAppend :
    ∀ (pre acc rest : Chars), '\n' ∉ pre →
      lineSplitAux acc (pre ++ '\n' :: rest) =
        ((acc.reverse ++ pre) ++ ['\n']) :: lineSplitAux [] rest := by
  intro pre
  induction pre with
  | nil =>
    intro acc rest _
    simp [lineSplitAux]
  | cons c pre ih =>
    intro acc rest h
    have hc : ¬ (c = '\n') := fun hh => h (hh ▸ List.mem_cons_self c pre)
    rw [List.cons_append, lineSplitAuxConsNe acc c _ hc,
      ih (c :: acc) rest (fun hh => h (List.mem_cons_of_mem c hh))]
    simp

/-- With no allow-listed inherit child under the root, the asset-bundle
extraction is a no-op: the tree is unchanged and nothing is collected. -/
theorem processRootNoop (root : XNode)
    (h : ∀ c ∈ root.childrenOf, ∀ iid ∈ ASSET_VIEWS,
      ¬ (c.getAttr "inherit_id" = some iid)) :
    processRoot root = (root, []) := by
  cases root with
  | elem t a tx ch tl =>
    have hch : ∀ ch' : List XNode,
        (∀ c ∈ ch', ∀ iid ∈ ASSET_VIEWS, ¬ (c.getAttr "inherit_id" = some iid)) →
        processRootChildren ch' = (ch', []) := by
      intro ch'
      induction ch' with
      | nil => intro _; rfl
      | cons c cs ih =>
        intro hcs
        have hrest := ih (fun c2 hc2 => hcs c2 (List.mem_cons_of_mem c hc2))
        rw [processRootChildren, hrest]
        cases hA : c.getAttr "inherit_id" with
        | none => rfl
        | some iid =>
          have hni : ¬ iid ∈ ASSET_VIEWS := fun hmem =>
            hcs c (List.mem_cons_self c cs) iid hmem hA
          simp [hni]
    rw [processRoot, hch ch (by exact h)]
  | comm c tl => rfl
  | pinst tg c tl => rfl

/-- Every serialized tree starts with the normalized declaration line: the
raw output's first line is the single-quoted declaration, and the per-line
pass rewrites it to double quotes. -/
theorem serializeStartsWithDecl (root : XNode) :
    takeChars (serializeXmlTree root) 39 = "<?xml version=\"1.0\" encoding=\"utf-8\"?>\n" := by
  rw [serializeXmlTree]
  have hdata : ("<?xml version='1.0' encoding='utf-8'?>\n" ++
      renderNode (indentTree root) ++ "\n").data =
      declRawLine ++ '\n' :: ((renderNode (indentTree root)).data ++ ['\n']) := by
    simp [declRawLine]
  rw [hdata, lineSplitAuxAppend declRawLine [] _ (by decide), List.map_cons,
    List.flatten_cons]
  rw [show restoreLine ((([] : Chars).reverse ++ declRawLine) ++ ['\n']) =
    "<?xml version=\"1.0\" encoding=\"utf-8\"?>\n".data from by decide]
  rw [takeChars]
  rw [show (39 : Nat) = ("<?xml version=\"1.0\" encoding=\"utf-8\"?>\n".data : Chars).length from by decide]
  rw [show (⟨("<?xml version=\"1.0\" encoding=\"utf-8\"?>\n".data ++
      ((lineSplitAux [] ((renderNode (indentTree root)).data ++ ['\n'])).map restoreLine).flatten : Chars)⟩ : String).data =
    "<?xml version=\"1.0\" encoding=\"utf-8\"?>\n".data ++
      ((lineSplitAux [] ((renderNode (indentTree root)).data ++ ['\n'])).map restoreLine).flatten from rfl]
  rw [List.take_left]

/-! ## Claim theorems -/

/-- C1, counterexample.  The claim states that the key-range start is the
END offset of the previous value's last token (adjusted past a comma).  On
the manifest `\x7b'name': 'ab', 'data': []\x7d` the previous value's last
token is the string token `'ab'` spanning offsets 9-13, so the claim
demands start = 14 (offset 13 holds a comma); the code computes
`startpos + 1 = 10`, an offset inside the string literal. -/
theorem C1_counterexample :
    parseManifest cexManifest = .ok cexManifestParse ∧
    claimKeyRange cexManifest cexManifestParse "data" = some (14, 25) ∧
    findDataIndexRange cexManifest = .ok (10, 25) ∧
    ¬ ((10, 25) = ((14 : Nat), (25 : Nat))) := by
  exact ⟨by decide, by decide, by decide, by decide⟩

/-- C1, amended.  For every manifest that parses as a single literal
mapping, the data/qweb locators return: end = end offset of the matched
value's last token; start = ONE PLUS THE START OFFSET of the previous
value's last token (or of the mapping's opening brace for the first key) —
equal to the end offset only when that token is one character long — where
only the data locator additionally advances past a comma; the qweb locator
makes no comma adjustment. -/
theorem C1_amended_locator (src : String) (d : MDict)
    (h : parseManifest src = .ok d) :
    findDataIndexRange src = amendedKeyRange src d "data" true dataErrMsg ∧
    findQwebIndexRange src = amendedKeyRange src d "qweb" false qwebErrMsg := by
  constructor
  · rw [findDataIndexRange, h]
    show findDataLoop src.data d.firstTok d.pairs = _
    rw [findDataLoopEq]
    unfold amendedKeyRange
    cases hidx : keyIdx "data" d.pairs with
    | none => rfl
    | some i => cases i <;> simp [prevTokA]
  · rw [findQwebIndexRange, h]
    show findQwebLoop src.data d.firstTok d.pairs = _
    rw [findQwebLoopEq]
    unfold amendedKeyRange
    cases hidx : keyIdx "qweb" d.pairs with
    | none => rfl
    | some i => cases i <;> simp [prevTokA]

/-- C1, witness for the amended theorem at a concrete manifest. -/
theorem C1_amended_witness :
    findDataIndexRange cexManifest =
      amendedKeyRange cexManifest cexManifestParse "data" true dataErrMsg ∧
    findQwebIndexRange cexManifest =
      amendedKeyRange cexManifest cexManifestParse "qweb" false qwebErrMsg :=
  C1_amended_locator cexManifest cexManifestParse (by decide)

/-- C2.  The patcher's three edits are pure splices: given the located
injection point or key span, the output is exactly the input bytes before
the span, the generated text, and the input bytes after the span — so all
bytes outside the target span (comments and blank lines included) are
preserved verbatim.  The gating conjuncts state that the assets injection
runs only when the accumulated assets mapping is non-empty, the data
replacement only when the original list was non-empty and the copy
differs, and the qweb removal only when the manifest had a qweb key. -/
theorem C2_patch_frame_and_gating :
    (∀ src assets q ind idx, findAssetsInjectIndex src = .ok idx →
      injectAssetsDict src assets q ind = .ok (takeChars src idx ++
        (if ¬ (charAt src.data (idx - 1) = some ',') then "," else "") ++
        assetsText assets q ind ++ dropChars src idx)) ∧
    (∀ src data q ind st en, findDataIndexRange src = .ok (st, en) →
      replaceDataList src data q ind =
        .ok (takeChars src st ++ dataListText data q ind ++ dropChars src en)) ∧
    (∀ src st en, findQwebIndexRange src = .ok (st, en) →
      removeQwebList src = .ok (takeChars src st ++ dropChars src en)) ∧
    (∀ src mn dO dN hq q ind, updateManifestSource src [] mn dO dN hq q ind =
      (if dO ≠ [] ∧ dN ≠ dO then replaceDataList src dN q ind else pure src).bind
        (fun s2 => if hq then removeQwebList s2 else pure s2)) ∧
    (∀ src assets mn dO hq q ind, updateManifestSource src assets mn dO dO hq q ind =
      (if assets ≠ [] then injectAssetsDict src (ensureAssetPaths assets mn) q ind
       else pure src).bind
        (fun s1 => if hq then removeQwebList s1 else pure s1)) ∧
    (∀ src assets mn dO dN q ind, updateManifestSource src assets mn dO dN false q ind =
      (if assets ≠ [] then injectAssetsDict src (ensureAssetPaths assets mn) q ind
       else pure src).bind
        (fun s1 => if dO ≠ [] ∧ dN ≠ dO then replaceDataList s1 dN q ind else pure s1)) ∧
    (∀ src assets mn dN hq q ind, updateManifestSource src assets mn [] dN hq q ind =
      (if assets ≠ [] then injectAssetsDict src (ensureAssetPaths assets mn) q ind
       else pure src).bind
        (fun s1 => if hq then removeQwebList s1 else pure s1)) := by
  refine ⟨?_, ?_, ?_, ?_, ?_, ?_, ?_⟩
  · intro src assets q ind idx h
    rw [injectAssetsDict, h]
    rfl
  · intro src data q ind st en h
    rw [replaceDataList, h]
    rfl
  · intro src st en h
    rw [removeQwebList, h]
    rfl
  · intro src mn dO dN hq q ind
    rw [updateManifestSource]
    rfl
  · intro src assets mn dO hq q ind
    rw [updateManifestSource]
    cases hA : (if assets ≠ [] then
        injectAssetsDict src (ensureAssetPaths assets mn) q ind else pure src) with
    | error e => rfl
    | ok s1 =>
      show (if dO ≠ [] ∧ dO ≠ dO then replaceDataList s1 dO q ind
            else pure s1).bind (fun s2 => if hq then removeQwebList s2 else pure s2) =
        (if hq then removeQwebList s1 else pure s1)
      rw [if_neg (by simp)]
      rfl
  · intro src assets mn dO dN q ind
    rw [updateManifestSource]
    cases hA : (if assets ≠ [] then
        injectAssetsDict src (ensureAssetPaths assets mn) q ind else pure src) with
    | error e => rfl
    | ok s1 =>
      simp only [Except.bind]
      exact bindPureExcept _
  · intro src assets mn dN hq q ind
    rw [updateManifestSource]
    cases hA : (if assets ≠ [] then
        injectAssetsDict src (ensureAssetPaths assets mn) q ind else pure src) with
    | error e => rfl
    | ok s1 => rfl

/-- C2, witness: the three frame equalities at the reference manifest. -/
theorem C2_witness :
    injectAssetsDict refManifest [("a", ["b"])] '\'' 4 = .ok (takeChars refManifest 33 ++
      (if ¬ (charAt refManifest.data (33 - 1) = some ',') then "," else "") ++
      assetsText [("a", ["b"])] '\'' 4 ++ dropChars refManifest 33) ∧
    replaceDataList refManifest ["x.xml"] '\'' 4 =
      .ok (takeChars refManifest 1 ++ dataListText ["x.xml"] '\'' 4 ++ dropChars refManifest 16) ∧
    removeQwebList refManifest = .ok (takeChars refManifest 16 ++ dropChars refManifest 32) :=
  ⟨C2_patch_frame_and_gating.1 refManifest [("a", ["b"])] '\'' 4 33 (by decide),
   C2_patch_frame_and_gating.2.1 refManifest ["x.xml"] '\'' 4 1 16 (by decide),
   C2_patch_frame_and_gating.2.2.1 refManifest 16 32 (by decide)⟩

/-- C3, counterexample.  The claim states that parse-then-serialize leaves
a conforming input (blank line between siblings, no allow-listed inherit
children) identical up to declaration-line quote normalization.  The
four-space-indented `xmlInput4` already has a normalized declaration, so
the claim demands output = `xmlInput4`; instead `et.indent(tree, "  ")`
re-indents the whole body to two spaces, producing `xmlInput2`. -/
theorem C3_counterexample :
    migrateXmlText xmlInput4 = .ok (xmlInput2, []) ∧ ¬ (xmlInput2 = xmlInput4) :=
  ⟨by rfl, by decide⟩

/-- C3, amended.  For every well-formed view file with no child of the
root carrying an allow-listed `inherit_id`, the migration collects nothing
and leaves the parsed tree unchanged (conjuncts 1-2), so
migrate-then-reserialize produces the two-space pretty-printed
reserialization of the parsed document rather than the input itself
(conjunct 2); for every tree the serialized output begins with the
double-quote-normalized XML declaration line (conjunct 3); and the output
equals the input exactly when the input is already in that normal form, as
for the reference file `xmlInput2`, whose blank line survives as the
placeholder processing instruction of its parse and is restored
byte-for-byte (conjunct 4). -/
theorem C3_amended_normal_form :
    (∀ root : XNode, (∀ c ∈ root.childrenOf, ∀ iid ∈ ASSET_VIEWS,
        ¬ (c.getAttr "inherit_id" = some iid)) →
      processRoot root = (root, [])) ∧
    (∀ (s : String) (root : XNode), parseXmlSource s = .ok root →
      (∀ c ∈ root.childrenOf, ∀ iid ∈ ASSET_VIEWS,
        ¬ (c.getAttr "inherit_id" = some iid)) →
      migrateXmlText s = .ok (serializeXmlTree root, [])) ∧
    (∀ root : XNode,
      takeChars (serializeXmlTree root) 39 = "<?xml version=\"1.0\" encoding=\"utf-8\"?>\n") ∧
    (parseXmlSource xmlInput2 = .ok xmlParsed2 ∧
      serializeXmlTree xmlParsed2 = xmlInput2 ∧
      migrateXmlText xmlInput2 = .ok (xmlInput2, [])) := by
  refine ⟨processRootNoop, ?_, serializeStartsWithDecl, by rfl, by rfl, by rfl⟩
  intro s root hparse hno
  rw [migrateXmlText, hparse]
  show Except.ok (serializeXmlTree (processRoot root).1, (processRoot root).2) = _
  rw [processRootNoop root hno]

/-- C3, witness for the amended theorem: the no-op and reserialization
conjuncts applied at the reference file. -/
theorem C3_amended_witness :
    processRoot xmlParsed2 = (xmlParsed2, []) ∧
    migrateXmlText xmlInput2 = .ok (serializeXmlTree xmlParsed2, []) :=
  ⟨C3_amended_normal_form.1 xmlParsed2 (by decide),
   C3_amended_normal_form.2.1 xmlInput2 xmlParsed2 (by rfl) (by decide)⟩

/-- C4, counterexample.  The claim states the key-range lookup signals a
non-fatal NotFound when the key is absent; the code instead raises
`RuntimeError` — modelled as `Except.error`, the same fatal channel used
for a malformed manifest — for both the data and the qweb lookup. -/
theorem C4_counterexample :
    findDataIndexRange cexNoKeyManifest = .error dataErrMsg ∧
    findQwebIndexRange cexNoKeyManifest = .error qwebErrMsg ∧
    exceptIsOk (findDataIndexRange cexNoKeyManifest) = false := by
  exact ⟨by decide, by decide, by decide⟩

/-- C4, amended.  When the requested key is absent from a manifest that
parses as a single literal mapping, the lookup raises the fatal
`RuntimeError` (`Except.error`); callers never rely on a non-fatal
NotFound — they consult the parsed manifest dict instead, so the qweb
removal is not invoked at all when the manifest has no qweb key (third
conjunct: with `hasQweb = false` the update pipeline consists of the
injection and data steps only). -/
theorem C4_amended_fatal_lookup (src : String) (d : MDict)
    (h : parseManifest src = .ok d) :
    ((∀ p ∈ d.pairs, p.key ≠ "data") → findDataIndexRange src = .error dataErrMsg) ∧
    ((∀ p ∈ d.pairs, p.key ≠ "qweb") → findQwebIndexRange src = .error qwebErrMsg) ∧
    (∀ src2 assets mn dO dN q ind, updateManifestSource src2 assets mn dO dN false q ind =
      (if assets ≠ [] then injectAssetsDict src2 (ensureAssetPaths assets mn) q ind
       else pure src2).bind
        (fun s1 => if dO ≠ [] ∧ dN ≠ dO then replaceDataList s1 dN q ind else pure s1)) := by
  refine ⟨?_, ?_, ?_⟩
  · intro habs
    rw [findDataIndexRange, h]
    show findDataLoop src.data d.firstTok d.pairs = _
    rw [findDataLoopEq, (keyIdxNoneIff "data" d.pairs).mpr habs]
  · intro habs
    rw [findQwebIndexRange, h]
    show findQwebLoop src.data d.firstTok d.pairs = _
    rw [findQwebLoopEq, (keyIdxNoneIff "qweb" d.pairs).mpr habs]
  · intro src2 assets mn dO dN q ind
    rw [updateManifestSource]
    cases hA : (if assets ≠ [] then
        injectAssetsDict src2 (ensureAssetPaths assets mn) q ind else pure src2) with
    | error e => rfl
    | ok s1 =>
      simp only [Except.bind]
      exact bindPureExcept _

/-- C4, witness for the amended theorem at a concrete manifest. -/
theorem C4_amended_witness :
    findDataIndexRange cexNoKeyManifest = .error dataErrMsg ∧
    findQwebIndexRange cexNoKeyManifest = .error qwebErrMsg :=
  ⟨(C4_amended_fatal_lookup cexNoKeyManifest cexNoKeyParse (by decide)).1 (by decide),
   (C4_amended_fatal_lookup cexNoKeyManifest cexNoKeyParse (by decide)).2.1 (by decide)⟩

/-- C5, counterexample.  The claim states the final assets mapping never
maps a bundle to an empty list.  With no assets collected from XML and a
manifest whose `qweb` key holds the empty list, the `defaultdict` access
`assets_dict["web.assets_qweb"].extend(manifest["qweb"])` creates exactly
such an entry, the dict is then truthy, and the empty bundle list is
injected into the manifest. -/
theorem C5_counterexample :
    buildAssetsDict [] (some []) = [("web.assets_qweb", [])] ∧
    updateManifestSource refManifest (buildAssetsDict [] (some [])) "mod" [] [] true '\'' 4 =
      .ok refManifestAfter ∧
    containsTokB "'web.assets_qweb': []".data refManifestAfter.data = true := by
  exact ⟨by decide, by decide, by decide⟩

/-- C5, amended.  A bundle key of the accumulated assets mapping maps to a
non-empty list, with exactly one exception: when the manifest has a `qweb`
key holding the empty list and no asset was collected for
`web.assets_qweb`, that bundle appears mapped to the empty list. -/
theorem C5_amended_no_empty_bundles (collected : List (String × String))
    (qweb : Option (List String)) (k : String) (v : List String)
    (hmem : (k, v) ∈ buildAssetsDict collected qweb) (hv : v = []) :
    k = "web.assets_qweb" ∧ qweb = some [] ∧ ∀ pr ∈ collected, pr.1 ≠ k := by
  unfold buildAssetsDict at hmem
  have hfold := foldlDdAppendValsNeNil collected [] (by intro kv h; cases h)
  cases qweb with
  | none =>
    exact absurd hv (hfold (k, v) hmem)
  | some qs =>
    have h3 := ddExtendEmptyAnalysis _ "web.assets_qweb" qs (k, v) hfold hmem hv
    refine ⟨h3.1, by rw [h3.2.1], ?_⟩
    intro pr hpr hk
    have hkp := foldlKeyPresent collected [] pr (Or.inl hpr)
    have h31 : k = "web.assets_qweb" := h3.1
    rw [hk, h31] at hkp
    have hfalse := h3.2.2
    rw [hkp] at hfalse
    cases hfalse

/-- C5, witness for the amended theorem: a collected backend asset and an
empty qweb list. -/
theorem C5_amended_witness :
    ("web.assets_qweb" : String) = "web.assets_qweb" ∧
    (some ([] : List String)) = some [] ∧
    ¬ ("web.assets_backend" : String) = "web.assets_qweb" :=
  ⟨(C5_amended_no_empty_bundles [("web.assets_backend", "/m/a.js")] (some [])
      "web.assets_qweb" [] (by decide) rfl).1,
   (C5_amended_no_empty_bundles [("web.assets_backend", "/m/a.js")] (some [])
      "web.assets_qweb" [] (by decide) rfl).2.1,
   (C5_amended_no_empty_bundles [("web.assets_backend", "/m/a.js")] (some [])
      "web.assets_qweb" [] (by decide) rfl).2.2
     ("web.assets_backend", "/m/a.js") (by decide)⟩

/-- C6.  The deletion rules of the XML migrator: (1) the code's
`_has_regular_subnodes` test (element DESCENDANTS via `iter`) coincides
with "has an element child", so comments, text and placeholder processing
instructions never block a deletion while real element children do;
(2) a leaf survives the leaf pass exactly when it carried no truthy
`src`/`href` or still has element content, and every truthy path is
collected in order; (3) a selected xpath child survives exactly when
element content remains under it after its own (innermost-first) leaf
pass; (4) an allow-listed inherit child of the root survives exactly when
element content remains under it after its own (innermost-first) xpath
pass, and children without an allow-listed `inherit_id` are untouched;
(5) the file is deleted from disk and its path removed (first occurrence)
from the data list exactly when the processed root has no element children
left. -/
theorem C6_deletion_rules :
    (∀ n, hasRegularSubnodes n = hasElemChild n) ∧
    (∀ fs, (processFiles fs).1 =
      fs.filter (fun f => (truthySrcHref f).isNone || hasRegularSubnodes f)) ∧
    (∀ fs, (processFiles fs).2 = fs.filterMap truthySrcHref) ∧
    (∀ ch, (processXpaths ch).1 = ch.flatMap (fun c =>
      if isSelXpath c then
        (if hasRegularSubnodes (processXpath c).1 then [(processXpath c).1] else [])
      else [c])) ∧
    (∀ ch, (processRootChildren ch).1 = ch.flatMap (fun c =>
      match c.getAttr "inherit_id" with
      | some iid =>
        if iid ∈ ASSET_VIEWS then
          (if hasRegularSubnodes (processNode c).1 then [(processNode c).1] else [])
        else [c]
      | none => [c])) ∧
    (∀ root path dl, (perFileStep root path dl).removedFile =
      !hasElemChild (perFileStep root path dl).newRoot) ∧
    (∀ root path dl, (perFileStep root path dl).newData =
      (if (perFileStep root path dl).removedFile then removeFirstStr dl path else dl)) := by
  refine ⟨hasRegularSubnodesEqHasElemChild, ?_, ?_, ?_, ?_, ?_, ?_⟩
  · intro fs
    induction fs with
    | nil => rfl
    | cons f fs ih =>
      cases ht : truthySrcHref f with
      | none => simp [processFiles, ht, List.filter, ih]
      | some p =>
        cases hr : hasRegularSubnodes f <;>
          simp [processFiles, ht, hr, List.filter, ih]
  · intro fs
    induction fs with
    | nil => rfl
    | cons f fs ih =>
      cases ht : truthySrcHref f with
      | none => simp [processFiles, ht, List.filterMap, ih]
      | some p =>
        cases hr : hasRegularSubnodes f <;>
          simp [processFiles, ht, hr, List.filterMap, ih]
  · intro ch
    induction ch with
    | nil => rfl
    | cons c cs ih =>
      by_cases hs : isSelXpath c
      · cases hr : hasRegularSubnodes (processXpath c).1 <;>
          simp [processXpaths, hs, hr, ih]
      · simp [processXpaths, hs, ih]
  · intro ch
    induction ch with
    | nil => rfl
    | cons c cs ih =>
      cases hA : c.getAttr "inherit_id" with
      | none => simp [processRootChildren, hA, ih]
      | some iid =>
        by_cases hm : iid ∈ ASSET_VIEWS
        · cases hr : hasRegularSubnodes (processNode c).1 <;>
            simp [processRootChildren, hA, hm, hr, ih]
        · simp [processRootChildren, hA, hm, ih]
  · intro root path dl
    show (!hasRegularSubnodes (processRoot root).1) = _
    rw [hasRegularSubnodesEqHasElemChild]
    rfl
  · intro root path dl
    rfl

/-- C7.  The indentation sniffer: the vote list is exactly one vote per
non-blank line with nonzero leading-space count and per candidate width in
`[4, 2, 3]` dividing that count (first conjunct, the votes as a flat map
over the lines); the sniffer fails fatally exactly when no vote was
recorded (second conjunct); and a returned width is a vote with the
largest count whose first occurrence in the vote list is no later than
that of any width with the same count — the `Counter.most_common(1)`
tie-break by insertion order, i.e. by the order the widths are first
encountered in the vote multiset (third conjunct). -/
theorem C7_indentation_sniffer (src : String) :
    indentVotes src.data = ((splitLines src.data).map indentVotesLine).flatten ∧
    (indentVotes src.data = [] ↔ determineIndentation src = .error indentationErrMsg) ∧
    (∀ w, determineIndentation src = .ok w →
      w ∈ indentVotes src.data ∧
      (∀ v ∈ indentVotes src.data,
        countN v (indentVotes src.data) ≤ countN w (indentVotes src.data)) ∧
      (∀ v ∈ indentVotes src.data,
        countN v (indentVotes src.data) = countN w (indentVotes src.data) →
        firstIdx w (indentVotes src.data) ≤ firstIdx v (indentVotes src.data))) := by
  have hlen : (indentVotes src.data).length < (indentVotes src.data).length + 1 :=
    Nat.lt_succ_self _
  have hckeq : counterKeysF ((indentVotes src.data).length + 1) (indentVotes src.data) =
      counterKeys (indentVotes src.data) := rfl
  refine ⟨?_, ?_, ?_⟩
  · rw [indentVotes, foldlAppendVotes]
    simp
  · constructor
    · intro hnil
      have hm : mostCommon1 (indentVotes src.data) = none := by
        rw [mostCommon1, hnil]
        rfl
      rw [determineIndentation, hm]
    · intro h
      by_contra hne
      cases hck : counterKeys (indentVotes src.data) with
      | nil => exact hne ((counterKeysNilIff _).mp hck)
      | cons k ks =>
        have hm : mostCommon1 (indentVotes src.data) =
            some (ks.foldl (fun b k2 => if countN k2 (indentVotes src.data) >
              countN b (indentVotes src.data) then k2 else b) k) := by
          rw [mostCommon1, hck]
        rw [determineIndentation, hm] at h
        cases h
  · intro w hw
    cases hck : counterKeys (indentVotes src.data) with
    | nil =>
      exfalso
      have hm : mostCommon1 (indentVotes src.data) = none := by
        rw [mostCommon1, hck]
      rw [determineIndentation, hm] at hw
      cases hw
    | cons k ks =>
      have hm : mostCommon1 (indentVotes src.data) =
          some (ks.foldl (fun b k2 => if countN k2 (indentVotes src.data) >
            countN b (indentVotes src.data) then k2 else b) k) := by
        rw [mostCommon1, hck]
      rw [determineIndentation, hm] at hw
      have hw' : ks.foldl (fun b k2 => if countN k2 (indentVotes src.data) >
          countN b (indentVotes src.data) then k2 else b) k = w := Except.ok.inj hw
      have hsorted := counterKeysFSorted ((indentVotes src.data).length + 1)
        (indentVotes src.data) hlen
      rw [hckeq, hck] at hsorted
      obtain ⟨hmem, hmax, htie⟩ := foldPickProps (indentVotes src.data) ks k hsorted
      rw [hw'] at hmem hmax htie
      have hmemkeys : ∀ a, a ∈ k :: ks ↔ a ∈ indentVotes src.data := by
        intro a
        have := counterKeysFMem ((indentVotes src.data).length + 1)
          (indentVotes src.data) a hlen
        rw [hckeq, hck] at this
        exact this
      refine ⟨(hmemkeys w).mp hmem, ?_, ?_⟩
      · intro v hvv
        exact hmax v ((hmemkeys v).mpr hvv)
      · intro v hvv heq
        exact htie v ((hmemkeys v).mpr hvv) heq

/-- C7, witness at the reference manifest (votes `[4, 2, 4, 2]`, sniffed
width 4). -/
theorem C7_witness :
    4 ∈ indentVotes refManifest.data ∧
    countN 2 (indentVotes refManifest.data) ≤ countN 4 (indentVotes refManifest.data) ∧
    firstIdx 4 (indentVotes refManifest.data) ≤ firstIdx 2 (indentVotes refManifest.data) :=
  ⟨((C7_indentation_sniffer refManifest).2.2 4 (by decide)).1,
   ((C7_indentation_sniffer refManifest).2.2 4 (by decide)).2.1 2 (by decide),
   ((C7_indentation_sniffer refManifest).2.2 4 (by decide)).2.2 2 (by decide) (by decide)⟩

/-- C8.  The template expression migrator rewrites the legacy
interpolation `$\x7bobject.name| safe\x7d` to `\x7b\x7b object.name \x7d\x7d`
(dropping the `| safe` suffix) and replaces every occurrence of the tokens
`t-raw` and `t-esc` with `t-out` wherever they occur — in attributes or in
text, independent of XML structure (second conjunct).  The last two
conjuncts characterize the literal replacement on EVERY input: the pieces
produced by splitting at the non-overlapping occurrences reassemble to the
original when joined with the token (so only occurrences are touched), the
replacement joins exactly those pieces with `t-out`, and no piece contains
a further occurrence (so every occurrence is replaced). -/
theorem C8_template_rewrites :
    migrateFileText "$\x7bobject.name| safe\x7d".data = "\x7b\x7b object.name \x7d\x7d".data ∧
    migrateFileText cex8In.data = cex8Out.data ∧
    (∀ s : Chars, replaceTok trawTok toutTok s = joinWith toutTok (splitTok trawTok s) ∧
      joinWith trawTok (splitTok trawTok s) = s ∧
      ∀ p ∈ splitTok trawTok s, ¬ occursIn trawTok p) ∧
    (∀ s : Chars, replaceTok tescTok toutTok s = joinWith toutTok (splitTok tescTok s) ∧
      joinWith tescTok (splitTok tescTok s) = s ∧
      ∀ p ∈ splitTok tescTok s, ¬ occursIn tescTok p) := by
  refine ⟨by decide, by decide, ?_, ?_⟩
  · intro s
    exact ⟨rfl, splitTokFJoin (s.length + 1) trawTok s (Nat.lt_succ_self _),
      splitTokFFree (s.length + 1) trawTok s (Nat.lt_succ_self _) (by decide)⟩
  · intro s
    exact ⟨rfl, splitTokFJoin (s.length + 1) tescTok s (Nat.lt_succ_self _),
      splitTokFFree (s.length + 1) tescTok s (Nat.lt_succ_self _) (by decide)⟩

/-- C8, witness: on `xt-rawy` the pieces rejoin to the input and the first
piece `x` is occurrence-free. -/
theorem C8_witness :
    joinWith trawTok (splitTok trawTok "xt-rawy".data) = "xt-rawy".data ∧
    ¬ occursIn trawTok ['x'] :=
  ⟨(C8_template_rewrites.2.2.1 "xt-rawy".data).2.1,
   (C8_template_rewrites.2.2.1 "xt-rawy".data).2.2 ['x'] (by decide)⟩

/-- C9.  The asset-path rooting step treats any path whose plain string
prefix equals the module name as already rooted: for module `web` the path
`website/foo.js` is untouched, a path starting with the module name is
always untouched, and a path is only ever prefixed when it starts with
neither `/<module_name>` nor `module_name`; the mapping is applied
pointwise to every bundle's path list. -/
theorem C9_path_rooting :
    rootAssetPath "web" "website/foo.js" = "website/foo.js" ∧
    (∀ mn p, pyStartsWith p mn = true → rootAssetPath mn p = p) ∧
    (∀ mn p, rootAssetPath mn p ≠ p →
      pyStartsWith p ("/" ++ mn) = false ∧ pyStartsWith p mn = false) ∧
    (∀ assets mn, ensureAssetPaths assets mn =
      assets.map (fun kv => (kv.1, kv.2.map (rootAssetPath mn)))) := by
  refine ⟨by decide, ?_, ?_, fun _ _ => rfl⟩
  · intro mn p h
    unfold rootAssetPath
    simp [h]
  · intro mn p h
    by_cases hc : ¬ pyStartsWith p ("/" ++ mn) = true ∧ ¬ pyStartsWith p mn = true
    · exact ⟨Bool.eq_false_iff.mpr hc.1, Bool.eq_false_iff.mpr hc.2⟩
    · exfalso
      apply h
      unfold rootAssetPath
      simp only [if_neg hc]

/-- C9, witness: a path starting with neither form is rewritten, hence
starts with neither prefix. -/
theorem C9_witness :
    pyStartsWith "a.js" "/web" = false ∧ pyStartsWith "a.js" "web" = false :=
  C9_path_rooting.2.2.1 "web" "a.js" (by decide)

/-- C10, counterexample.  The claim states every manifest edit preserves
the single-literal-mapping parse invariant.  On
`\x7b'name': 'ab', 'data': ['a.xml', 'b.xml']\x7d` (which parses), the
data replacement succeeds but splices inside the string token `'ab'`, and
the result no longer parses. -/
theorem C10_counterexample :
    exceptIsOk (parseManifest cexDataManifest) = true ∧
    exceptIsOk (replaceDataList cexDataManifest ["a.xml"] '\'' 4) = true ∧
    exceptIsOk ((replaceDataList cexDataManifest ["a.xml"] '\'' 4).bind
      (fun s => parseManifest s)) = false := by
  exact ⟨by decide, by decide, by decide⟩

/-- C10, amended.  The update pipeline applies the assets injection FIRST,
then the data replacement, then the qweb removal, each step re-parsing the
source produced by the previous one (first conjunct, the literal bind
chain).  The edits do not preserve the parse invariant in general (see the
counterexample: a data or qweb edit corrupts the source when the token
preceding the edited key is longer than one character); on a manifest
whose edited keys follow single-character tokens the full pipeline output
still parses as a single literal mapping (second conjunct). -/
theorem C10_amended_order_and_reparse :
    (∀ src assets mn dO dN hq q ind, updateManifestSource src assets mn dO dN hq q ind =
      (if assets ≠ [] then injectAssetsDict src (ensureAssetPaths assets mn) q ind
       else pure src).bind
        (fun s1 => (if dO ≠ [] ∧ dN ≠ dO then replaceDataList s1 dN q ind else pure s1).bind
          (fun s2 => if hq then removeQwebList s2 else pure s2))) ∧
    exceptIsOk ((updateManifestSource goodManifest [("web.assets_qweb", ["t.xml"])] "mod"
      ["a.xml", "b.xml"] ["a.xml"] true '\'' 4).bind (fun s => parseManifest s)) = true := by
  exact ⟨fun _ _ _ _ _ _ _ _ => rfl, by decide⟩

end OdooMig
